import Mathlib

/-!
Shallow embedding of the nano-wal storage engine (src/src/lib.rs) and proofs
about it.  Byte sequences are `List Nat` (each element a byte value), file
names are `List Char`, and the directory is an association list from names to
contents.  The key hash function (`std::collections::hash_map::DefaultHasher`
in the source) is kept as an explicit parameter `hf` of the operations, since
its algorithm is unspecified; every property proved here is parametric in it
unless stated otherwise.
-/

namespace NanoWal

/-! ### Little-endian integer encoding (u16 / u64 `to_le_bytes` / `from_le_bytes`) -/

/-- Little-endian encoding of a `u16` value (`(n as u16).to_le_bytes()`). -/
def le16 (n : Nat) : List Nat := [n % 256, n / 256 % 256]

/-- Little-endian encoding of a `u64` value (`n.to_le_bytes()`). -/
def le64 (n : Nat) : List Nat :=
  [n % 256, n / 256 % 256, n / 256 ^ 2 % 256, n / 256 ^ 3 % 256,
   n / 256 ^ 4 % 256, n / 256 ^ 5 % 256, n / 256 ^ 6 % 256, n / 256 ^ 7 % 256]

/-- Little-endian decoding, `uXX::from_le_bytes`. -/
def decodeLe (bs : List Nat) : Nat := bs.foldr (fun b acc => b + 256 * acc) 0

@[simp] theorem le16_length (n : Nat) : (le16 n).length = 2 := rfl

@[simp] theorem le64_length (n : Nat) : (le64 n).length = 8 := rfl

@[simp] theorem decodeLe_le16 (n : Nat) : decodeLe (le16 n) = n % 2 ^ 16 := by
  simp only [le16, decodeLe, List.foldr]
  omega

@[simp] theorem decodeLe_le64 (n : Nat) : decodeLe (le64 n) = n % 2 ^ 64 := by
  simp only [le64, decodeLe, List.foldr]
  omega

theorem decodeLe_le16_of_lt {n : Nat} (h : n < 2 ^ 16) : decodeLe (le16 n) = n := by
  rw [decodeLe_le16, Nat.mod_eq_of_lt h]

theorem decodeLe_le64_of_lt {n : Nat} (h : n < 2 ^ 64) : decodeLe (le64 n) = n := by
  rw [decodeLe_le64, Nat.mod_eq_of_lt h]

/-! ### Signatures and size limits (constants from the source) -/

/-- The 8-byte ASCII `NANO-LOG` segment-file signature. -/
def nanoLogSignature : List Nat := [78, 65, 78, 79, 45, 76, 79, 71]

/-- The 6-byte ASCII `NANORC` record signature. -/
def nanoRecSignature : List Nat := [78, 65, 78, 79, 82, 67]

/-- `MAX_HEADER_SIZE`. -/
def maxHeaderSize : Nat := 65535

@[simp] theorem nanoLogSignature_length : nanoLogSignature.length = 8 := rfl

@[simp] theorem nanoRecSignature_length : nanoRecSignature.length = 6 := rfl

/-! ### Decimal digit strings (Rust `{}` / `{:04}` formatting of `u64`, `str::parse::<u64>`) -/

/-- The ASCII digit character for a value below ten. -/
def digitChar (n : Nat) : Char :=
  match n with
  | 0 => '0' | 1 => '1' | 2 => '2' | 3 => '3' | 4 => '4'
  | 5 => '5' | 6 => '6' | 7 => '7' | 8 => '8' | _ => '9'

/-- Decimal digits of `n`, most significant first, via bounded recursion on a
fuel argument (always sufficient, see `natDigitsAux_fuel`). -/
def natDigitsAux : Nat → Nat → List Char
  | 0, _ => []
  | fuel + 1, n =>
    if n < 10 then [digitChar n] else natDigitsAux fuel (n / 10) ++ [digitChar (n % 10)]

/-- Decimal rendering of a natural number, as Rust `format!("{}", n)` produces
for an unsigned integer. -/
def natDigits (n : Nat) : List Char := natDigitsAux (n + 1) n

/-- Zero padding to width four, as Rust `format!("{:04}", n)`. -/
def padTo4 (ds : List Char) : List Char := List.replicate (4 - ds.length) '0' ++ ds

/-- ASCII digit test, as accepted by `str::parse::<u64>`. -/
def isAsciiDigit (c : Char) : Bool := 48 ≤ c.toNat && c.toNat ≤ 57

/-- Value of a digit string, most significant digit first. -/
def digitsToNat (ds : List Char) : Nat := ds.foldl (fun acc c => acc * 10 + (c.toNat - 48)) 0

/-- Model of Rust `str::parse::<u64>`: an optional leading plus sign, then one
or more ASCII digits, with the value required to fit in a `u64`. -/
def parseU64 (s : List Char) : Option Nat :=
  let ds := if s.head? = some '+' then s.tail else s
  if ds.isEmpty then none
  else if ds.all isAsciiDigit then
    let v := digitsToNat ds
    if v < 2 ^ 64 then some v else none
  else none

theorem natDigitsAux_fuel {fuel n : Nat} (h : n < fuel) :
    natDigitsAux fuel n = natDigitsAux (n + 1) n := by
  induction fuel using Nat.strong_induction_on generalizing n with
  | _ fuel ih =>
    match fuel, h with
    | fuel + 1, h =>
      by_cases h10 : n < 10
      · simp [natDigitsAux, h10]
      · have hd : n / 10 < fuel := by omega
        have hn : n / 10 < n := by omega
        simp only [natDigitsAux, h10, if_false]
        rw [ih fuel (Nat.lt_succ_self _) hd, ih n (by omega) hn]

theorem natDigits_eq (n : Nat) :
    natDigits n = if n < 10 then [digitChar n] else natDigits (n / 10) ++ [digitChar (n % 10)] := by
  by_cases h : n < 10
  · simp [natDigits, natDigitsAux, h]
  · have h10 : 10 ≤ n := by omega
    have : natDigitsAux (n + 1) n = natDigitsAux n (n / 10) ++ [digitChar (n % 10)] := by
      simp [natDigitsAux, h]
    rw [natDigits, this, natDigitsAux_fuel (by omega : n / 10 < n)]
    simp [natDigits, h]

theorem digitChar_isDigit {n : Nat} : isAsciiDigit (digitChar n) = true := by
  match n with
  | 0 | 1 | 2 | 3 | 4 | 5 | 6 | 7 | 8 => decide
  | m + 9 => simp only [digitChar]; decide

theorem digitChar_toNat {n : Nat} (h : n < 10) : (digitChar n).toNat = 48 + n := by
  interval_cases n <;> decide

theorem isAsciiDigit_ne_dash {c : Char} (h : isAsciiDigit c = true) : c ≠ '-' := by
  intro hc; subst hc; simp [isAsciiDigit] at h

theorem isAsciiDigit_ne_plus {c : Char} (h : isAsciiDigit c = true) : c ≠ '+' := by
  intro hc; subst hc; simp [isAsciiDigit] at h

theorem natDigits_all_digits {n : Nat} : ∀ c ∈ natDigits n, isAsciiDigit c = true := by
  induction n using Nat.strong_induction_on with
  | _ n ih =>
    rw [natDigits_eq]
    by_cases h : n < 10
    · simp only [h, if_true]
      intro c hc
      simp at hc
      subst hc
      exact digitChar_isDigit
    · simp only [h, if_false]
      intro c hc
      rcases List.mem_append.mp hc with hl | hr
      · exact ih (n / 10) (by omega) c hl
      · simp at hr; subst hr; exact digitChar_isDigit

theorem natDigits_ne_nil {n : Nat} : natDigits n ≠ [] := by
  rw [natDigits_eq]
  by_cases h : n < 10 <;> simp [h]

theorem digitsToNat_append_one (l : List Char) (c : Char) :
    digitsToNat (l ++ [c]) = digitsToNat l * 10 + (c.toNat - 48) := by
  simp [digitsToNat, List.foldl_append]

theorem digitsToNat_natDigits (n : Nat) : digitsToNat (natDigits n) = n := by
  induction n using Nat.strong_induction_on with
  | _ n ih =>
    rw [natDigits_eq]
    by_cases h : n < 10
    · simp only [h, if_true, digitsToNat, List.foldl]
      rw [digitChar_toNat h]
      omega
    · simp only [h, if_false]
      rw [digitsToNat_append_one, ih (n / 10) (by omega), digitChar_toNat (by omega)]
      omega

theorem digitsToNat_pad (k : Nat) (ds : List Char) :
    digitsToNat (List.replicate k '0' ++ ds) = digitsToNat ds := by
  induction k with
  | zero => simp
  | succ k ih =>
    simp only [List.replicate_succ, List.cons_append]
    show List.foldl _ ((0 : Nat) * 10 + ('0'.toNat - 48)) _ = _
    simpa [digitsToNat] using ih

theorem parseU64_digits {ds : List Char} (hne : ds ≠ [])
    (hall : ∀ c ∈ ds, isAsciiDigit c = true) (hv : digitsToNat ds < 2 ^ 64) :
    parseU64 ds = some (digitsToNat ds) := by
  match ds, hne with
  | c :: rest, _ =>
    have hc : isAsciiDigit c = true := hall c (List.mem_cons_self _ _)
    have hplus : c ≠ '+' := isAsciiDigit_ne_plus hc
    have hallb : (c :: rest).all isAsciiDigit = true := List.all_eq_true.mpr hall
    simp only [parseU64, List.head?, Option.some.injEq]
    rw [if_neg hplus]
    simp only [List.isEmpty_cons, Bool.false_eq_true, if_false, hallb, if_true]
    rw [if_pos (by omega)]

theorem parseU64_natDigits {n : Nat} (h : n < 2 ^ 64) : parseU64 (natDigits n) = some n := by
  have := @parseU64_digits (natDigits n) natDigits_ne_nil natDigits_all_digits
  rw [digitsToNat_natDigits] at this
  exact this h

theorem parseU64_padTo4_natDigits {n : Nat} (h : n < 2 ^ 64) :
    parseU64 (padTo4 (natDigits n)) = some n := by
  have hne : padTo4 (natDigits n) ≠ [] := by
    simp only [padTo4]
    intro hcon
    exact natDigits_ne_nil (List.append_eq_nil.mp hcon).2
  have hall : ∀ c ∈ padTo4 (natDigits n), isAsciiDigit c = true := by
    intro c hc
    rcases List.mem_append.mp hc with hl | hr
    · have := List.eq_of_mem_replicate hl
      subst this; decide
    · exact natDigits_all_digits c hr
  have := parseU64_digits hne hall
  rw [padTo4, digitsToNat_pad, digitsToNat_natDigits] at this
  exact this h

/-! ### Filename codec (`parse_filename`, `generate_filename`) -/

/-- Auxiliary splitter with an accumulator of characters of the current piece,
in reverse. -/
def splitDashAux : List Char → List Char → List (List Char)
  | [], acc => [acc.reverse]
  | c :: cs, acc => if c = '-' then acc.reverse :: splitDashAux cs [] else splitDashAux cs (c :: acc)

/-- Model of Rust `str::split('-')` (empty pieces included). -/
def splitDash (s : List Char) : List (List Char) := splitDashAux s []

/-- The characters of the `.log` extension. -/
def logSuffixChars : List Char := ['.', 'l', 'o', 'g']

/-- Model of Rust `str::ends_with(suffix)`. -/
def endsWith (suffix s : List Char) : Bool := decide (s.drop (s.length - suffix.length) = suffix)

/-- Model of Rust `str::starts_with(p)`. -/
def startsWith (p s : List Char) : Bool := decide (s.take p.length = p)

/-- Model of Rust `str::strip_suffix(".log")`. -/
def stripLogSuffix (s : List Char) : Option (List Char) :=
  if endsWith logSuffixChars s then some (s.take (s.length - 4)) else none

/-- `Wal::parse_filename`: strip the `.log` suffix, split on dashes, require at
least three pieces, and parse the last piece as the sequence number and the
next-to-last piece as the key hash. -/
def parseFilename (filename : List Char) : Option (Nat × Nat) :=
  match stripLogSuffix filename with
  | none => none
  | some namePart =>
    let parts := splitDash namePart
    if 3 ≤ parts.length then
      match parts[parts.length - 1]?, parts[parts.length - 2]? with
      | some lastPart, some penultPart =>
        match parseU64 lastPart, parseU64 penultPart with
        | some sequence, some keyHash => some (keyHash, sequence)
        | _, _ => none
      | _, _ => none
    else none

/-- The key-hash portion of a parsed filename. -/
def parsedHash (filename : List Char) : Option Nat := (parseFilename filename).map Prod.fst

/-- Sanitized-character test from `Wal::generate_filename`: alphanumeric,
underscore or dash.  `Char.isAlphanum` is the ASCII restriction of Rust's
Unicode `char::is_alphanumeric`; no property below depends on the exact
character class. -/
def isSanitizedChar (c : Char) : Bool := c.isAlphanum || c = '_' || c = '-'

/-- The sanitized display form of a key: filtered characters, truncated to 20. -/
def sanitizeKey (display : List Char) : List Char := (display.filter isSanitizedChar).take 20

/-- A key, as the engine consumes it: a byte view (`AsRef<[u8]>`, used for
hashing and the stored key bytes) and a display form (`Display`, used for the
filename). -/
structure Key where
  bytes : List Nat
  display : List Char
deriving DecidableEq

/-- `Wal::generate_filename`: `{sanitized}-{key_hash}-{sequence:04}.log`. -/
def generateFilename (key : Key) (keyHash sequence : Nat) : List Char :=
  sanitizeKey key.display ++ ['-'] ++ natDigits keyHash ++ ['-'] ++
    padTo4 (natDigits sequence) ++ logSuffixChars

theorem splitDashAux_no_dash {ds : List Char} (h : ∀ c ∈ ds, c ≠ '-') (acc : List Char) :
    splitDashAux ds acc = [acc.reverse ++ ds] := by
  induction ds generalizing acc with
  | nil => simp [splitDashAux]
  | cons c cs ih =>
    have hc : c ≠ '-' := h c (List.mem_cons_self _ _)
    simp only [splitDashAux, if_neg hc]
    rw [ih (fun d hd => h d (List.mem_cons_of_mem _ hd))]
    simp

theorem splitDashAux_append_dash {xs ds : List Char} (h : ∀ c ∈ ds, c ≠ '-') (acc : List Char) :
    splitDashAux (xs ++ '-' :: ds) acc = splitDashAux xs acc ++ [ds] := by
  induction xs generalizing acc with
  | nil =>
    simp only [List.nil_append, splitDashAux, if_pos rfl]
    rw [splitDashAux_no_dash h]
    simp [splitDashAux]
  | cons c cs ih =>
    simp only [List.cons_append, splitDashAux, List.append_eq]
    by_cases hc : c = '-'
    · simp only [if_pos hc, ih, List.cons_append]
    · simp only [if_neg hc, ih]

theorem splitDash_two_dashes {s ds₁ ds₂ : List Char}
    (h₁ : ∀ c ∈ ds₁, c ≠ '-') (h₂ : ∀ c ∈ ds₂, c ≠ '-') :
    splitDash (s ++ '-' :: ds₁ ++ '-' :: ds₂) = splitDash s ++ [ds₁] ++ [ds₂] := by
  unfold splitDash
  rw [show s ++ '-' :: ds₁ ++ '-' :: ds₂ = (s ++ '-' :: ds₁) ++ '-' :: ds₂ by simp]
  rw [splitDashAux_append_dash h₂, splitDashAux_append_dash h₁]

theorem splitDash_ne_nil (s : List Char) : splitDash s ≠ [] := by
  unfold splitDash
  generalize ([] : List Char) = acc
  induction s generalizing acc with
  | nil => simp [splitDashAux]
  | cons c cs ih =>
    simp only [splitDashAux]
    by_cases hc : c = '-' <;> simp [hc, ih]

theorem stripLogSuffix_append (xs : List Char) :
    stripLogSuffix (xs ++ logSuffixChars) = some xs := by
  have hlen : (xs ++ logSuffixChars).length = xs.length + 4 := by simp [logSuffixChars]
  have hends : endsWith logSuffixChars (xs ++ logSuffixChars) = true := by
    simp only [endsWith, hlen, decide_eq_true_eq]
    have : xs.length + 4 - logSuffixChars.length = xs.length := by simp [logSuffixChars]
    rw [this, List.drop_left]
  simp only [stripLogSuffix, hends, if_true, hlen]
  rw [show xs.length + 4 - 4 = xs.length from rfl, List.take_left]

theorem padTo4_no_dash {n : Nat} : ∀ c ∈ padTo4 (natDigits n), c ≠ '-' := by
  intro c hc
  rcases List.mem_append.mp hc with hl | hr
  · rw [List.eq_of_mem_replicate hl]; decide
  · exact isAsciiDigit_ne_dash (natDigits_all_digits c hr)

theorem natDigits_no_dash {n : Nat} : ∀ c ∈ natDigits n, c ≠ '-' :=
  fun c hc => isAsciiDigit_ne_dash (natDigits_all_digits c hc)

/-- Engine-generated filenames always parse back to the key hash and sequence
number they were generated from, provided both fit in a `u64`. -/
theorem parseFilename_generate (key : Key) {keyHash sequence : Nat}
    (hh : keyHash < 2 ^ 64) (hs : sequence < 2 ^ 64) :
    parseFilename (generateFilename key keyHash sequence) = some (keyHash, sequence) := by
  have hshape : generateFilename key keyHash sequence =
      (sanitizeKey key.display ++ '-' :: natDigits keyHash ++
        '-' :: padTo4 (natDigits sequence)) ++ logSuffixChars := by
    simp [generateFilename]
  rw [hshape]
  simp only [parseFilename, stripLogSuffix_append]
  rw [splitDash_two_dashes natDigits_no_dash padTo4_no_dash]
  have h1 : 1 ≤ (splitDash (sanitizeKey key.display)).length :=
    List.length_pos.mpr (splitDash_ne_nil _)
  set l := splitDash (sanitizeKey key.display) with hl
  have hlen : (l ++ [natDigits keyHash] ++ [padTo4 (natDigits sequence)]).length =
      l.length + 2 := by simp
  rw [if_pos (by omega)]
  have hidx2 : (l ++ [natDigits keyHash] ++ [padTo4 (natDigits sequence)])[l.length + 2 - 2]? =
      some (natDigits keyHash) := by
    rw [List.append_assoc, List.getElem?_append_right (by omega)]
    simp
  have hidx1 : (l ++ [natDigits keyHash] ++ [padTo4 (natDigits sequence)])[l.length + 2 - 1]? =
      some (padTo4 (natDigits sequence)) := by
    rw [List.append_assoc, List.getElem?_append_right (by omega)]
    have : l.length + 2 - 1 - l.length = 1 := by omega
    simp [this]
  rw [hlen, hidx1, hidx2]
  simp [parseU64_padTo4_natDigits hs, parseU64_natDigits hh]

theorem parseU64_digits_cases {ds : List Char} (hne : ds ≠ [])
    (hall : ∀ c ∈ ds, isAsciiDigit c = true) :
    parseU64 ds = if digitsToNat ds < 2 ^ 64 then some (digitsToNat ds) else none := by
  match ds, hne with
  | c :: rest, _ =>
    have hc : isAsciiDigit c = true := hall c (List.mem_cons_self _ _)
    have hplus : c ≠ '+' := isAsciiDigit_ne_plus hc
    have hallb : (c :: rest).all isAsciiDigit = true := List.all_eq_true.mpr hall
    simp only [parseU64, List.head?, Option.some.injEq]
    rw [if_neg hplus]
    simp only [List.isEmpty_cons, Bool.false_eq_true, if_false, hallb, if_true]

theorem parseU64_natDigits_some {n v : Nat} (h : parseU64 (natDigits n) = some v) : v = n := by
  have := @parseU64_digits_cases (natDigits n) natDigits_ne_nil natDigits_all_digits
  rw [digitsToNat_natDigits] at this
  rw [this] at h
  by_cases hlt : n < 2 ^ 64
  · rw [if_pos hlt] at h; exact (Option.some.injEq _ _ ▸ h).symm
  · rw [if_neg hlt] at h; exact absurd h (by simp)

/-- Core evaluation of `parse_filename` on an engine-generated filename. -/
theorem parseFilename_generate_core (key : Key) (keyHash sequence : Nat) :
    parseFilename (generateFilename key keyHash sequence) =
      match parseU64 (padTo4 (natDigits sequence)), parseU64 (natDigits keyHash) with
      | some s, some kh => some (kh, s)
      | _, _ => none := by
  have hshape : generateFilename key keyHash sequence =
      (sanitizeKey key.display ++ '-' :: natDigits keyHash ++
        '-' :: padTo4 (natDigits sequence)) ++ logSuffixChars := by
    simp [generateFilename]
  rw [hshape]
  simp only [parseFilename, stripLogSuffix_append]
  rw [splitDash_two_dashes natDigits_no_dash padTo4_no_dash]
  have h1 : 1 ≤ (splitDash (sanitizeKey key.display)).length :=
    List.length_pos.mpr (splitDash_ne_nil _)
  set l := splitDash (sanitizeKey key.display) with hl
  have hlen : (l ++ [natDigits keyHash] ++ [padTo4 (natDigits sequence)]).length =
      l.length + 2 := by simp
  rw [if_pos (by omega)]
  have hidx2 : (l ++ [natDigits keyHash] ++ [padTo4 (natDigits sequence)])[l.length + 2 - 2]? =
      some (natDigits keyHash) := by
    rw [List.append_assoc, List.getElem?_append_right (by omega)]
    simp
  have hidx1 : (l ++ [natDigits keyHash] ++ [padTo4 (natDigits sequence)])[l.length + 2 - 1]? =
      some (padTo4 (natDigits sequence)) := by
    rw [List.append_assoc, List.getElem?_append_right (by omega)]
    have : l.length + 2 - 1 - l.length = 1 := by omega
    simp [this]
  rw [hlen, hidx1, hidx2]

/-- If the target key hash differs, a filename generated for another hash never
parses back to the target hash. -/
theorem parsedHash_generate_ne {key : Key} {keyHash sequence target : Nat}
    (hne : keyHash ≠ target) :
    parsedHash (generateFilename key keyHash sequence) ≠ some target := by
  rw [parsedHash, parseFilename_generate_core]
  cases hp : parseU64 (padTo4 (natDigits sequence)) with
  | none => simp
  | some s =>
    cases hk : parseU64 (natDigits keyHash) with
    | none => simp
    | some kh =>
      have : kh = keyHash := parseU64_natDigits_some hk
      subst this
      simpa using hne

/-- The enumeration filter's filename prefix `{sanitized}-{key_hash}-`. -/
def enumerationPre (hf : List Nat → Nat) (key : Key) : List Char :=
  sanitizeKey key.display ++ ['-'] ++ natDigits (hf key.bytes) ++ ['-']

/-- A filename generated for the key itself always starts with the enumeration
filter prefix. -/
theorem startsWith_enumerationPre (hf : List Nat → Nat) (key : Key) (sequence : Nat) :
    startsWith (enumerationPre hf key) (generateFilename key (hf key.bytes) sequence) = true := by
  have hshape : generateFilename key (hf key.bytes) sequence =
      enumerationPre hf key ++ (padTo4 (natDigits sequence) ++ logSuffixChars) := by
    simp [generateFilename, enumerationPre]
  rw [hshape, startsWith, decide_eq_true_eq, List.take_left]

/-- A generated filename always ends with `.log`. -/
theorem endsWith_generate (key : Key) (keyHash sequence : Nat) :
    endsWith logSuffixChars (generateFilename key keyHash sequence) = true := by
  have hshape : generateFilename key keyHash sequence =
      (sanitizeKey key.display ++ '-' :: natDigits keyHash ++
        '-' :: padTo4 (natDigits sequence)) ++ logSuffixChars := by
    simp [generateFilename]
  rw [hshape, endsWith, decide_eq_true_eq]
  have : ((sanitizeKey key.display ++ '-' :: natDigits keyHash ++
      '-' :: padTo4 (natDigits sequence)) ++ logSuffixChars).length -
      logSuffixChars.length =
      (sanitizeKey key.display ++ '-' :: natDigits keyHash ++
        '-' :: padTo4 (natDigits sequence)).length := by
    simp [logSuffixChars]
    omega
  rw [this, List.drop_left]

/-! ### On-disk binary framing -/

/-- The segment file header: `NANO-LOG`, an 8-byte zero sequence placeholder,
the 8-byte expiration timestamp, the 8-byte key length, and the key bytes
(`Wal::write_file_header`). -/
def segmentHeaderBytes (key : Key) (expirationTimestamp : Nat) : List Nat :=
  nanoLogSignature ++ le64 0 ++ le64 expirationTimestamp ++ le64 key.bytes.length ++ key.bytes

/-- One record frame: `NANORC`, the 2-byte header length, the header bytes,
the 8-byte content length, and the content bytes (the write in
`Wal::append_entry`). -/
def recordFrame (header : Option (List Nat)) (content : List Nat) : List Nat :=
  nanoRecSignature ++ le16 (header.getD []).length ++ header.getD [] ++
    le64 content.length ++ content

@[simp] theorem segmentHeaderBytes_length (key : Key) (e : Nat) :
    (segmentHeaderBytes key e).length = 32 + key.bytes.length := by
  simp [segmentHeaderBytes]
  omega

@[simp] theorem recordFrame_length (header : Option (List Nat)) (content : List Nat) :
    (recordFrame header content).length =
      16 + (header.getD []).length + content.length := by
  simp [recordFrame]
  omega

/-! ### The directory (file system state) -/

/-- One file in the WAL directory. -/
structure FsFile where
  name : List Char
  content : List Nat
deriving DecidableEq

/-- The WAL directory: files in creation order. -/
abbrev Fs := List FsFile

/-- Content of the file with the given name, if present. -/
def lookupFs (fs : Fs) (name : List Char) : Option (List Nat) :=
  (fs.find? (fun f => decide (f.name = name))).map FsFile.content

/-- Write the full content of a file: replace it in place if present, else
append it to the directory. -/
def insertFs : Fs → List Char → List Nat → Fs
  | [], name, c => [⟨name, c⟩]
  | f :: rest, name, c =>
    if f.name = name then ⟨name, c⟩ :: rest else f :: insertFs rest name c

/-! ### Error type (`WalError`) -/

/-- The error kinds of `WalError` (messages and I/O error payloads dropped). -/
inductive WalError where
  | io
  | invalidConfig
  | entryNotFound
  | corruptedData
  | headerTooLarge (size maxAllowed : Nat)
deriving DecidableEq

/-! ### Configuration (`WalOptions`) -/

/-- `WalOptions`: retention in whole seconds (`Duration::as_secs`) and the
number of segments per retention period. -/
structure WalOptions where
  entryRetentionSecs : Nat
  segmentsPerRetentionPeriod : Nat
deriving DecidableEq

/-- `WalOptions::validate`. -/
def WalOptions.validate (o : WalOptions) : Except WalError Unit :=
  if o.entryRetentionSecs = 0 then .error .invalidConfig
  else if o.segmentsPerRetentionPeriod = 0 then .error .invalidConfig
  else .ok ()

/-- The segment duration computed in `Wal::get_or_create_active_segment`:
`entry_retention.as_secs() / segments_per_retention_period` (integer
division, u64). -/
def segmentDuration (o : WalOptions) : Nat :=
  o.entryRetentionSecs / o.segmentsPerRetentionPeriod

/-! ### In-memory WAL state -/

/-- `EntryRef`. -/
structure EntryRef where
  keyHash : Nat
  sequenceNumber : Nat
  offset : Nat
deriving DecidableEq

/-- `ActiveSegment`: the open append-mode file handle is modelled by the name
of the file it writes to. -/
structure ActiveSegment where
  filename : List Char
  sequenceNumber : Nat
  expirationTimestamp : Nat
deriving DecidableEq

/-- The in-memory `Wal` state.  The two hash maps are association lists with
at most one entry per key. -/
structure Wal where
  options : WalOptions
  activeSegments : List (Nat × ActiveSegment)
  nextSequence : List (Nat × Nat)
deriving DecidableEq

/-- `HashMap::get`. -/
def lookupA {β : Type} (l : List (Nat × β)) (k : Nat) : Option β :=
  (l.find? (fun p => decide (p.1 = k))).map Prod.snd

/-- `HashMap::insert` (replaces any existing entry). -/
def insertA {β : Type} (l : List (Nat × β)) (k : Nat) (v : β) : List (Nat × β) :=
  (k, v) :: l.filter (fun p => decide (p.1 ≠ k))

/-- `HashMap::remove`. -/
def eraseA {β : Type} (l : List (Nat × β)) (k : Nat) : List (Nat × β) :=
  l.filter (fun p => decide (p.1 ≠ k))

@[simp] theorem lookupA_insertA_self {β : Type} (l : List (Nat × β)) (k : Nat) (v : β) :
    lookupA (insertA l k v) k = some v := by
  simp [lookupA, insertA, List.find?]

theorem insertA_eq_cons_erase {β : Type} (l : List (Nat × β)) (k : Nat) (v : β) :
    insertA l k v = (k, v) :: eraseA l k := rfl

theorem lookupA_eraseA_self {β : Type} (l : List (Nat × β)) (k : Nat) :
    lookupA (eraseA l k) k = none := by
  have : List.find? (fun p => decide (p.1 = k))
      (List.filter (fun p => decide (p.1 ≠ k)) l) = none := by
    apply List.find?_eq_none.mpr
    intro x hx
    have hx' := List.of_mem_filter hx
    simp at hx' ⊢
    exact hx'
  simp [lookupA, eraseA, this]

theorem lookupA_eraseA_ne {β : Type} (l : List (Nat × β)) {k k' : Nat} (h : k' ≠ k) :
    lookupA (eraseA l k) k' = lookupA l k' := by
  simp only [lookupA, eraseA]
  induction l with
  | nil => simp
  | cons p rest ih =>
    by_cases hpk : p.1 = k
    · rw [List.filter_cons_of_neg (by simp [hpk])]
      rw [List.find?_cons_of_neg _ (by simp [hpk]; omega)]
      exact ih
    · rw [List.filter_cons_of_pos (by simp [hpk])]
      by_cases hp : p.1 = k'
      · rw [List.find?_cons_of_pos _ (by simp [hp]), List.find?_cons_of_pos _ (by simp [hp])]
      · rw [List.find?_cons_of_neg _ (by simp [hp]), List.find?_cons_of_neg _ (by simp [hp])]
        exact ih

theorem lookupA_insertA_ne {β : Type} (l : List (Nat × β)) {k k' : Nat} (v : β)
    (h : k' ≠ k) : lookupA (insertA l k v) k' = lookupA l k' := by
  rw [insertA_eq_cons_erase]
  have step : lookupA ((k, v) :: eraseA l k) k' = lookupA (eraseA l k) k' := by
    simp only [lookupA]
    rw [List.find?_cons_of_neg _ (by simp; omega)]
  rw [step, lookupA_eraseA_ne l h]

/-! ### WAL operations -/

/-- One step of `Wal::scan_existing_files` over a directory entry. -/
def scanStep (ns : List (Nat × Nat)) (f : FsFile) : List (Nat × Nat) :=
  if endsWith logSuffixChars f.name then
    match parseFilename f.name with
    | some (keyHash, sequence) =>
      insertA ns keyHash (max ((lookupA ns keyHash).getD 0) (sequence + 1))
    | none => ns
  else ns

/-- `Wal::scan_existing_files`: seed the next-sequence table from the
directory listing. -/
def scanExistingFiles (fs : Fs) : List (Nat × Nat) := fs.foldl scanStep []

/-- `Wal::new`: validate the options and scan the directory.  Directory
creation is implicit (the directory is the given `fs`). -/
def walNew (opts : WalOptions) (fs : Fs) : Except WalError Wal :=
  match opts.validate with
  | .error e => .error e
  | .ok _ => .ok ⟨opts, [], scanExistingFiles fs⟩

/-- Result of `Wal::get_or_create_active_segment` together with the directory
it may have extended. -/
structure SegResult where
  wal : Wal
  fs : Fs
  keyHash : Nat

/-- `Wal::get_or_create_active_segment`, parametrized by the hash function
`hf` and the current wall clock `now` (`Utc::now().timestamp()`). -/
def getOrCreateActiveSegment (hf : List Nat → Nat) (wal : Wal) (fs : Fs) (now : Nat)
    (key : Key) : SegResult :=
  let keyHash := hf key.bytes
  let wal1 :=
    match lookupA wal.activeSegments keyHash with
    | some active =>
      if now ≥ active.expirationTimestamp then
        { wal with activeSegments := eraseA wal.activeSegments keyHash }
      else wal
    | none => wal
  if (lookupA wal1.activeSegments keyHash).isSome then ⟨wal1, fs, keyHash⟩
  else
    let sequence := (lookupA wal1.nextSequence keyHash).getD 1
    let wal2 := { wal1 with nextSequence := insertA wal1.nextSequence keyHash (sequence + 1) }
    let expirationTimestamp := now + segmentDuration wal2.options
    let filename := generateFilename key keyHash sequence
    let newContent := (lookupFs fs filename).getD [] ++
      segmentHeaderBytes key expirationTimestamp
    let fs2 := insertFs fs filename newContent
    let active : ActiveSegment := ⟨filename, sequence, expirationTimestamp⟩
    ⟨{ wal2 with activeSegments := insertA wal2.activeSegments keyHash active }, fs2, keyHash⟩

/-- Result of a successful `Wal::append_entry`. -/
structure AppendSuccess where
  wal : Wal
  fs : Fs
  ref : EntryRef
deriving DecidableEq

/-- `Wal::append_entry`.  The append-mode file handle writes at the end of the
file; `stream_position` is the file length, since the segment header was
written through the same handle. -/
def appendEntry (hf : List Nat → Nat) (wal : Wal) (fs : Fs) (now : Nat) (key : Key)
    (header : Option (List Nat)) (content : List Nat) (durable : Bool) :
    Except WalError AppendSuccess :=
  if (header.getD []).length > maxHeaderSize then
    .error (.headerTooLarge (header.getD []).length maxHeaderSize)
  else
    let r := getOrCreateActiveSegment hf wal fs now key
    match lookupA r.wal.activeSegments r.keyHash with
    | none => .error .io
    | some active =>
      let fileContent := (lookupFs r.fs active.filename).getD []
      let currentPosition := fileContent.length
      let fileHeaderSize := 8 + 8 + 8 + 8 + key.bytes.length
      let entryOffset := currentPosition - fileHeaderSize
      let fs2 := insertFs r.fs active.filename (fileContent ++ recordFrame header content)
      .ok ⟨r.wal, fs2, ⟨r.keyHash, active.sequenceNumber, entryOffset⟩⟩

/-- The tolerant per-segment record scan: the loop of
`Wal::read_records_from_segment`, operating on the bytes from the current
position to the end of file.  Any failed read or signature mismatch stops the
scan. -/
def scanRecords (bytes : List Nat) : List (List Nat) :=
  if h6 : 6 ≤ bytes.length then
    if bytes.take 6 = nanoRecSignature then
      let rest1 := bytes.drop 6
      if 2 ≤ rest1.length then
        let headerLen := decodeLe (rest1.take 2)
        let rest2 := rest1.drop (2 + headerLen)
        if 8 ≤ rest2.length then
          let contentLen := decodeLe (rest2.take 8)
          let rest3 := rest2.drop 8
          if contentLen ≤ rest3.length then
            rest3.take contentLen :: scanRecords (rest3.drop contentLen)
          else []
        else []
      else []
    else []
  else []
termination_by bytes.length
decreasing_by
  simp only [List.length_drop]
  omega

/-- `Wal::read_records_from_segment`: skip the segment file header, then run
the tolerant scan.  `skip_file_header` fails with an I/O error when the fixed
32-byte part of the header cannot be read. -/
def readRecordsFromSegment (content : List Nat) : Except WalError (List (List Nat)) :=
  if content.length < 32 then .error .io
  else
    let keyLen := decodeLe ((content.drop 24).take 8)
    .ok (scanRecords (content.drop (32 + keyLen)))

/-- `Wal::read_entry_from_file`: skip the segment header, seek by `offset`,
check the record signature, skip the record header, read the content. -/
def readEntryFromFile (content : List Nat) (offset : Nat) : Except WalError (List Nat) :=
  if content.length < 32 then .error .io
  else
    let keyLen := decodeLe ((content.drop 24).take 8)
    let rest := content.drop (32 + keyLen + offset)
    if rest.length < 6 then .error .io
    else if rest.take 6 ≠ nanoRecSignature then .error .corruptedData
    else
      let rest1 := rest.drop 6
      if rest1.length < 2 then .error .io
      else
        let headerLen := decodeLe (rest1.take 2)
        let rest2 := rest1.drop (2 + headerLen)
        if rest2.length < 8 then .error .io
        else
          let contentLen := decodeLe (rest2.take 8)
          let rest3 := rest2.drop 8
          if rest3.length < contentLen then .error .io
          else .ok (rest3.take contentLen)

/-- `Wal::read_entry_at`: find the first directory entry whose parsed filename
matches the reference, and read from it; otherwise `EntryNotFound`. -/
def readEntryAt (fs : Fs) (entryRef : EntryRef) : Except WalError (List Nat) :=
  match fs.find? (fun f =>
      decide (parseFilename f.name = some (entryRef.keyHash, entryRef.sequenceNumber))) with
  | some f => readEntryFromFile f.content entryRef.offset
  | none => .error .entryNotFound

/-- The collection loop of `Wal::enumerate_records`: the `(sequence, file)`
pairs of the directory entries passing the prefix, suffix and parse tests. -/
def collectSegmentFiles (hf : List Nat → Nat) (fs : Fs) (key : Key) :
    List (Nat × List Nat) :=
  fs.filterMap (fun f =>
    if startsWith (enumerationPre hf key) f.name && endsWith logSuffixChars f.name then
      match parseFilename f.name with
      | some (_, sequence) => some (sequence, f.content)
      | none => none
    else none)

/-- `Wal::enumerate_records`: collect the matching segment files, sort by
sequence number (`sort_by_key` is a stable sort), and concatenate each
segment's tolerant scan, skipping segments whose header read fails. -/
def enumerateRecords (hf : List Nat → Nat) (fs : Fs) (key : Key) : List (List Nat) :=
  let sorted := (collectSegmentFiles hf fs key).mergeSort (fun a b => decide (a.1 ≤ b.1))
  sorted.flatMap (fun p => ((readRecordsFromSegment p.2).toOption.getD []))

/-- The embedded expiration timestamp of a segment file (bytes 16..24). -/
def embeddedExpiration (content : List Nat) : Nat := decodeLe ((content.drop 16).take 8)

/-- The per-file deletion decision of `Wal::compact`: keep the file unless it
is a `.log` file whose signature verifies, whose fixed header is readable, and
whose embedded expiration is strictly in the past. -/
def compactKeep (now : Nat) (f : FsFile) : Bool :=
  if endsWith logSuffixChars f.name then
    if 8 ≤ f.content.length ∧ f.content.take 8 = nanoLogSignature then
      if 24 ≤ f.content.length then
        if now > embeddedExpiration f.content then false else true
      else true
    else true
  else true

/-- `Wal::compact` on the directory: delete every expired segment file. -/
def compactFs (now : Nat) (fs : Fs) : Fs := fs.filter (compactKeep now)

/-- `Wal::compact` as the full operation: it touches only the directory, never
the in-memory tables. -/
def walCompact (wal : Wal) (fs : Fs) (now : Nat) : Wal × Fs := (wal, compactFs now fs)

/-- `Wal::active_segment_count`. -/
def activeSegmentCount (wal : Wal) : Nat := wal.activeSegments.length

/-! ### Byte-level laws of the record scan and the targeted read -/

/-- An abstract record: the header and content of one append. -/
structure Frame where
  header : Option (List Nat)
  content : List Nat
deriving DecidableEq

/-- Well-formedness of an append as the engine admits it: the header within
`MAX_HEADER_SIZE` and the content length within `u64`. -/
def Frame.wf (fr : Frame) : Prop :=
  (fr.header.getD []).length ≤ 65535 ∧ fr.content.length < 2 ^ 64

/-- The bytes of a list of record frames, in order. -/
def framesBytes (frames : List Frame) : List Nat :=
  (frames.map (fun fr => recordFrame fr.header fr.content)).flatten

@[simp] theorem framesBytes_nil : framesBytes [] = [] := rfl

@[simp] theorem framesBytes_cons (fr : Frame) (frames : List Frame) :
    framesBytes (fr :: frames) = recordFrame fr.header fr.content ++ framesBytes frames := by
  simp [framesBytes]

theorem framesBytes_append (a b : List Frame) :
    framesBytes (a ++ b) = framesBytes a ++ framesBytes b := by
  simp [framesBytes]

/-- The tolerant scan stops, without error, at any position where the record
signature cannot be read in full or does not match. -/
theorem scanRecords_stop {bytes : List Nat}
    (h : ¬(6 ≤ bytes.length ∧ bytes.take 6 = nanoRecSignature)) :
    scanRecords bytes = [] := by
  rw [scanRecords]
  by_cases h6 : 6 ≤ bytes.length
  · rw [dif_pos h6, if_neg (fun hsig => h ⟨h6, hsig⟩)]
  · rw [dif_neg h6]

/-- The tolerant scan consumes one well-formed frame and continues. -/
theorem scanRecords_frame_cons (header : Option (List Nat)) (content tail : List Nat)
    (hh : (header.getD []).length ≤ 65535) (hc : content.length < 2 ^ 64) :
    scanRecords (recordFrame header content ++ tail) = content :: scanRecords tail := by
  set hdr := header.getD [] with hhdr
  have hshape : recordFrame header content ++ tail =
      nanoRecSignature ++
        (le16 hdr.length ++ (hdr ++ (le64 content.length ++ (content ++ tail)))) := by
    simp [recordFrame]
  have h6 : 6 ≤ (recordFrame header content ++ tail).length := by
    rw [hshape]; simp
  have hsig : (recordFrame header content ++ tail).take 6 = nanoRecSignature := by
    rw [hshape]; exact List.take_left' rfl
  have hdrop6 : (recordFrame header content ++ tail).drop 6 =
      le16 hdr.length ++ (hdr ++ (le64 content.length ++ (content ++ tail))) := by
    rw [hshape]; exact List.drop_left' rfl
  rw [scanRecords, dif_pos h6, if_pos hsig]
  simp only [hdrop6]
  have htake2 : (le16 hdr.length ++ (hdr ++ (le64 content.length ++ (content ++ tail)))).take 2 =
      le16 hdr.length := List.take_left' rfl
  have hlen1 : 2 ≤ (le16 hdr.length ++
      (hdr ++ (le64 content.length ++ (content ++ tail)))).length := by
    simp
  rw [if_pos hlen1]
  simp only [htake2, decodeLe_le16]
  have hmod : hdr.length % 2 ^ 16 = hdr.length := Nat.mod_eq_of_lt (by omega)
  simp only [hmod]
  have hdrop2 : (le16 hdr.length ++ (hdr ++ (le64 content.length ++ (content ++ tail)))).drop
      (2 + hdr.length) = le64 content.length ++ (content ++ tail) := by
    rw [show le16 hdr.length ++ (hdr ++ (le64 content.length ++ (content ++ tail))) =
      (le16 hdr.length ++ hdr) ++ (le64 content.length ++ (content ++ tail)) by simp]
    exact List.drop_left' (by simp)
  simp only [hdrop2]
  have hlen2 : 8 ≤ (le64 content.length ++ (content ++ tail)).length := by simp
  rw [if_pos hlen2]
  have htake8 : (le64 content.length ++ (content ++ tail)).take 8 = le64 content.length :=
    List.take_left' rfl
  have hdrop8 : (le64 content.length ++ (content ++ tail)).drop 8 = content ++ tail :=
    List.drop_left' rfl
  simp only [htake8, hdrop8, decodeLe_le64, Nat.mod_eq_of_lt hc]
  rw [if_pos (by simp)]
  rw [List.take_left, List.drop_left]

/-- The tolerant scan of a sequence of well-formed frames followed by a
non-frame tail returns exactly the frame contents, in order. -/
theorem scanRecords_frames (frames : List Frame) (junk : List Nat)
    (hwf : ∀ fr ∈ frames, fr.wf)
    (hjunk : ¬(6 ≤ junk.length ∧ junk.take 6 = nanoRecSignature)) :
    scanRecords (framesBytes frames ++ junk) = frames.map Frame.content := by
  induction frames with
  | nil => simpa using scanRecords_stop hjunk
  | cons fr rest ih =>
    have hfr := hwf fr (List.mem_cons_self _ _)
    rw [framesBytes_cons, List.append_assoc,
      scanRecords_frame_cons fr.header fr.content _ hfr.1 hfr.2,
      ih (fun g hg => hwf g (List.mem_cons_of_mem _ hg))]
    simp

/-- Decoding the key length slot of a segment file. -/
theorem segHeader_decode (key : Key) (exp : Nat) (body : List Nat) :
    decodeLe (((segmentHeaderBytes key exp ++ body).drop 24).take 8) =
      key.bytes.length % 2 ^ 64 := by
  have hshape : segmentHeaderBytes key exp ++ body =
      (nanoLogSignature ++ le64 0 ++ le64 exp) ++
        (le64 key.bytes.length ++ (key.bytes ++ body)) := by
    simp [segmentHeaderBytes]
  rw [hshape]
  rw [List.drop_left' (by simp)]
  rw [List.take_left' (le64_length key.bytes.length)]
  simp

/-- Seeking past the segment header and `offset` more bytes lands at
`body.drop offset`. -/
theorem segHeader_drop (key : Key) (exp : Nat) (body : List Nat) (offset : Nat) :
    (segmentHeaderBytes key exp ++ body).drop (32 + key.bytes.length + offset) =
      body.drop offset := by
  have h1 : ((segmentHeaderBytes key exp ++ body).drop (32 + key.bytes.length)).drop offset =
      (segmentHeaderBytes key exp ++ body).drop (32 + key.bytes.length + offset) :=
    List.drop_drop offset (32 + key.bytes.length) _
  rw [← h1, List.drop_left' (by simp)]

@[simp] theorem segHeader_body_length (key : Key) (exp : Nat) (body : List Nat) :
    (segmentHeaderBytes key exp ++ body).length = 32 + key.bytes.length + body.length := by
  simp

/-- Per-segment enumeration of a well-formed segment file succeeds and returns
exactly the frame contents. -/
theorem readRecordsFromSegment_spec (key : Key) (exp : Nat) (frames : List Frame)
    (junk : List Nat) (hklen : key.bytes.length < 2 ^ 64)
    (hwf : ∀ fr ∈ frames, fr.wf)
    (hjunk : ¬(6 ≤ junk.length ∧ junk.take 6 = nanoRecSignature)) :
    readRecordsFromSegment (segmentHeaderBytes key exp ++ (framesBytes frames ++ junk)) =
      .ok (frames.map Frame.content) := by
  have hkl : decodeLe (((segmentHeaderBytes key exp ++ (framesBytes frames ++ junk)).drop
      24).take 8) = key.bytes.length := by
    rw [segHeader_decode]; exact Nat.mod_eq_of_lt hklen
  have hdropAll : (segmentHeaderBytes key exp ++ (framesBytes frames ++ junk)).drop
      (32 + key.bytes.length) = framesBytes frames ++ junk :=
    List.drop_left' (by simp)
  rw [readRecordsFromSegment]
  rw [if_neg (by simp only [segHeader_body_length]; omega)]
  simp only [hkl, hdropAll, scanRecords_frames frames junk hwf hjunk]

/-- A targeted read at the offset of a well-formed frame returns its content. -/
theorem readEntryFromFile_frame (key : Key) (exp : Nat) (before : List Nat)
    (header : Option (List Nat)) (content tail : List Nat)
    (hklen : key.bytes.length < 2 ^ 64)
    (hh : (header.getD []).length ≤ 65535) (hc : content.length < 2 ^ 64) :
    readEntryFromFile
      (segmentHeaderBytes key exp ++ (before ++ (recordFrame header content ++ tail)))
      before.length = .ok content := by
  set hdr := header.getD [] with hhdr
  set whole := segmentHeaderBytes key exp ++ (before ++ (recordFrame header content ++ tail))
    with hwhole
  have hkl : decodeLe ((whole.drop 24).take 8) = key.bytes.length := by
    rw [hwhole, segHeader_decode]; exact Nat.mod_eq_of_lt hklen
  have hrest : whole.drop (32 + key.bytes.length + before.length) =
      recordFrame header content ++ tail := by
    rw [hwhole, segHeader_drop, List.drop_left]
  have hframe : recordFrame header content ++ tail =
      nanoRecSignature ++
        (le16 hdr.length ++ (hdr ++ (le64 content.length ++ (content ++ tail)))) := by
    simp [recordFrame]
  rw [readEntryFromFile]
  rw [if_neg (by simp only [hwhole, segHeader_body_length]; omega)]
  simp only [hkl, hrest, hframe]
  rw [if_neg (by simp)]
  rw [if_neg (by rw [List.take_left' nanoRecSignature_length]; simp)]
  rw [List.drop_left' nanoRecSignature_length]
  rw [if_neg (by simp)]
  rw [List.take_left' (le16_length hdr.length)]
  simp only [decodeLe_le16, Nat.mod_eq_of_lt (show hdr.length < 2 ^ 16 by omega)]
  rw [show le16 hdr.length ++ (hdr ++ (le64 content.length ++ (content ++ tail))) =
    (le16 hdr.length ++ hdr) ++ (le64 content.length ++ (content ++ tail)) by simp]
  rw [List.drop_left' (by simp)]
  rw [if_neg (by simp)]
  rw [List.take_left' (le64_length content.length)]
  simp only [decodeLe_le64, Nat.mod_eq_of_lt hc]
  rw [List.drop_left' (le64_length content.length)]
  rw [if_neg (by simp)]
  rw [List.take_left]

/-- A targeted read at a position with at least six bytes that do not form the
record signature fails with `CorruptedData`. -/
theorem readEntryFromFile_badSig (key : Key) (exp : Nat) (before junk : List Nat)
    (hklen : key.bytes.length < 2 ^ 64)
    (h6 : 6 ≤ junk.length) (hsig : junk.take 6 ≠ nanoRecSignature) :
    readEntryFromFile (segmentHeaderBytes key exp ++ (before ++ junk)) before.length =
      .error .corruptedData := by
  set whole := segmentHeaderBytes key exp ++ (before ++ junk) with hwhole
  have hkl : decodeLe ((whole.drop 24).take 8) = key.bytes.length := by
    rw [hwhole, segHeader_decode]; exact Nat.mod_eq_of_lt hklen
  have hrest : whole.drop (32 + key.bytes.length + before.length) = junk := by
    rw [hwhole, segHeader_drop, List.drop_left]
  rw [readEntryFromFile]
  rw [if_neg (by simp only [hwhole, segHeader_body_length]; omega)]
  simp only [hkl, hrest]
  rw [if_neg (by omega)]
  rw [if_pos hsig]

/-- A targeted read at a position with fewer than six remaining bytes fails
with an I/O error (a failed `read_exact`), not `CorruptedData`. -/
theorem readEntryFromFile_shortTail (key : Key) (exp : Nat) (before junk : List Nat)
    (hklen : key.bytes.length < 2 ^ 64) (h6 : junk.length < 6) :
    readEntryFromFile (segmentHeaderBytes key exp ++ (before ++ junk)) before.length =
      .error .io := by
  set whole := segmentHeaderBytes key exp ++ (before ++ junk) with hwhole
  have hkl : decodeLe ((whole.drop 24).take 8) = key.bytes.length := by
    rw [hwhole, segHeader_decode]; exact Nat.mod_eq_of_lt hklen
  have hrest : whole.drop (32 + key.bytes.length + before.length) = junk := by
    rw [hwhole, segHeader_drop, List.drop_left]
  rw [readEntryFromFile]
  rw [if_neg (by simp only [hwhole, segHeader_body_length]; omega)]
  simp only [hkl, hrest]
  rw [if_pos (by omega)]

/-! ### Execution traces of appends -/

/-- An abstract segment: its sequence number, expiration, and frames. -/
structure Seg where
  seq : Nat
  exp : Nat
  frames : List Frame
deriving DecidableEq

/-- The segment file a segment denotes on disk. -/
def segFile (key : Key) (keyHash : Nat) (s : Seg) : FsFile :=
  ⟨generateFilename key keyHash s.seq, segmentHeaderBytes key s.exp ++ framesBytes s.frames⟩

/-- All record contents of a list of segments, in segment order then frame
order. -/
def flatContents (segs : List Seg) : List (List Nat) :=
  segs.flatMap (fun s => s.frames.map Frame.content)

/-- One `append_entry` call with its arguments and wall-clock time. -/
structure AppendOp where
  key : Key
  header : Option (List Nat)
  content : List Nat
  durable : Bool
  now : Nat

/-- Run one append against the state, keeping the old state on error (the
source returns the error to the caller before mutating anything). -/
def runAppend (hf : List Nat → Nat) (st : Wal × Fs) (op : AppendOp) : Wal × Fs :=
  match appendEntry hf st.1 st.2 op.now op.key op.header op.content op.durable with
  | .ok r => (r.wal, r.fs)
  | .error _ => st

/-- Run a sequence of appends from a freshly opened WAL over an empty
directory. -/
def runTrace (hf : List Nat → Nat) (opts : WalOptions) (ops : List AppendOp) : Wal × Fs :=
  ops.foldl (runAppend hf) (⟨opts, [], []⟩, [])

/-- The contents appended to one key by a trace, in order. -/
def kContents (ops : List AppendOp) (key : Key) : List (List Nat) :=
  ops.filterMap (fun op => if op.key = key then some op.content else none)

/-- The membership test "this file belongs to the target key hash" as decided
by `parse_filename` (the test `read_entry_at` uses). -/
def isKFileTest (keyHash : Nat) (f : FsFile) : Bool := decide (parsedHash f.name = some keyHash)

/-! ### Directory surgery lemmas -/

theorem lookupFs_insertFs_self (fs : Fs) (nm : List Char) (c : List Nat) :
    lookupFs (insertFs fs nm c) nm = some c := by
  induction fs with
  | nil => simp [insertFs, lookupFs, List.find?]
  | cons f rest ih =>
    by_cases hn : f.name = nm
    · simp [insertFs, hn, lookupFs]
    · simp only [insertFs, if_neg hn, lookupFs]
      rw [List.find?_cons_of_neg _ (by simpa using hn)]
      exact ih

theorem mem_insertFs {fs : Fs} {nm : List Char} {c : List Nat} {f : FsFile}
    (h : f ∈ insertFs fs nm c) : f = ⟨nm, c⟩ ∨ f ∈ fs := by
  induction fs with
  | nil => simpa [insertFs] using h
  | cons g rest ih =>
    by_cases hn : g.name = nm
    · rw [insertFs, if_pos hn] at h
      rcases List.mem_cons.mp h with h1 | h2
      · exact Or.inl h1
      · exact Or.inr (List.mem_cons_of_mem _ h2)
    · rw [insertFs, if_neg hn] at h
      rcases List.mem_cons.mp h with h1 | h2
      · exact Or.inr (h1 ▸ List.mem_cons_self _ _)
      · rcases ih h2 with h3 | h4
        · exact Or.inl h3
        · exact Or.inr (List.mem_cons_of_mem _ h4)

theorem insertFs_of_not_mem {fs : Fs} {nm : List Char} (c : List Nat)
    (h : ∀ f ∈ fs, f.name ≠ nm) : insertFs fs nm c = fs ++ [⟨nm, c⟩] := by
  induction fs with
  | nil => simp [insertFs]
  | cons g rest ih =>
    rw [insertFs, if_neg (h g (List.mem_cons_self _ _))]
    rw [ih (fun f hf => h f (List.mem_cons_of_mem _ hf))]
    simp

theorem lookupFs_eq_none {fs : Fs} {nm : List Char} (h : ∀ f ∈ fs, f.name ≠ nm) :
    lookupFs fs nm = none := by
  rw [lookupFs]
  rw [List.find?_eq_none.mpr (fun f hf => by simpa using h f hf)]
  rfl

theorem lookupFs_of_unique {fs : Fs} {x : FsFile} (hmem : x ∈ fs)
    (huniq : ∀ f ∈ fs, f.name = x.name → f = x) :
    lookupFs fs x.name = some x.content := by
  induction fs with
  | nil => cases hmem
  | cons g rest ih =>
    by_cases hn : g.name = x.name
    · have : g = x := huniq g (List.mem_cons_self _ _) hn
      subst this
      simp [lookupFs, List.find?_cons_of_pos]
    · rw [lookupFs, List.find?_cons_of_neg _ (by simpa using hn)]
      have hmem' : x ∈ rest := by
        rcases List.mem_cons.mp hmem with h1 | h2
        · exact absurd (h1 ▸ rfl) hn
        · exact h2
      exact ih hmem' (fun f hf hfn => huniq f (List.mem_cons_of_mem _ hf) hfn)

theorem find?_unique {α : Type} (p : α → Bool) {l : List α} {x : α} (hmem : x ∈ l)
    (hx : p x = true) (huniq : ∀ y ∈ l, p y = true → y = x) : l.find? p = some x := by
  induction l with
  | nil => cases hmem
  | cons g rest ih =>
    by_cases hg : p g = true
    · rw [List.find?_cons_of_pos _ hg, huniq g (List.mem_cons_self _ _) hg]
    · rw [List.find?_cons_of_neg _ (by simpa using hg)]
      have hmem' : x ∈ rest := by
        rcases List.mem_cons.mp hmem with h1 | h2
        · subst h1; exact absurd hx hg
        · exact h2
      exact ih hmem' (fun y hy hyp => huniq y (List.mem_cons_of_mem _ hy) hyp)

theorem filter_insertFs_false {keyHash : Nat} {fs : Fs} {nm : List Char} (c : List Nat)
    (h : parsedHash nm ≠ some keyHash) :
    (insertFs fs nm c).filter (isKFileTest keyHash) = fs.filter (isKFileTest keyHash) := by
  have hnew : isKFileTest keyHash ⟨nm, c⟩ = false := by
    simpa [isKFileTest] using h
  induction fs with
  | nil => simp [insertFs, hnew]
  | cons g rest ih =>
    by_cases hn : g.name = nm
    · rw [insertFs, if_pos hn]
      have hg : isKFileTest keyHash g = false := by
        simp only [isKFileTest, decide_eq_false_iff_not]
        rw [show g.name = nm from hn]
        exact h
      rw [List.filter_cons_of_neg (by simp [hnew]), List.filter_cons_of_neg (by simp [hg])]
    · rw [insertFs, if_neg hn]
      by_cases hg : isKFileTest keyHash g = true
      · rw [List.filter_cons_of_pos hg, List.filter_cons_of_pos hg, ih]
      · rw [List.filter_cons_of_neg (by simpa using hg),
          List.filter_cons_of_neg (by simpa using hg), ih]

theorem filter_insertFs_last {keyHash : Nat} {fs : Fs} {l : List FsFile} {x : FsFile}
    (c : List Nat)
    (hfe : fs.filter (isKFileTest keyHash) = l ++ [x])
    (hnames : ∀ f ∈ l, f.name ≠ x.name)
    (hP : parsedHash x.name = some keyHash) :
    (insertFs fs x.name c).filter (isKFileTest keyHash) = l ++ [⟨x.name, c⟩] := by
  induction fs generalizing l with
  | nil =>
    exfalso
    have : ([] : List FsFile) = l ++ [x] := by simpa using hfe
    exact absurd this.symm (by simp)
  | cons g rest ih =>
    by_cases hn : g.name = x.name
    · have hg : isKFileTest keyHash g = true := by
        simp only [isKFileTest, decide_eq_true_eq]
        rw [hn]; exact hP
      rw [List.filter_cons_of_pos hg] at hfe
      rw [insertFs, if_pos hn]
      match l, hfe with
      | [], hfe =>
        have hgx : g = x := by simpa using List.head_eq_of_cons_eq hfe
        have hrest : rest.filter (isKFileTest keyHash) = [] := by
          simpa using List.tail_eq_of_cons_eq hfe
        rw [List.filter_cons_of_pos (by simpa [isKFileTest] using hP), hrest]
        rfl
      | y :: l', hfe =>
        have hgy : g = y := by simpa using List.head_eq_of_cons_eq hfe
        exact absurd (hgy ▸ hn) (hnames y (List.mem_cons_self _ _))
    · rw [insertFs, if_neg hn]
      by_cases hg : isKFileTest keyHash g = true
      · rw [List.filter_cons_of_pos hg] at hfe
        match l, hfe with
        | [], hfe =>
          have hgx : g = x := by simpa using List.head_eq_of_cons_eq hfe
          exact absurd (hgx ▸ hn) (by simp)
        | y :: l', hfe =>
          have hgy : g = y := by simpa using List.head_eq_of_cons_eq hfe
          have hrest : rest.filter (isKFileTest keyHash) = l' ++ [x] := by
            simpa using List.tail_eq_of_cons_eq hfe
          rw [List.filter_cons_of_pos hg,
            ih hrest (fun f hf => hnames f (List.mem_cons_of_mem _ hf)), hgy]
          simp
      · rw [List.filter_cons_of_neg (by simpa using hg)] at hfe
        rw [List.filter_cons_of_neg (by simpa using hg)]
        exact ih hfe hnames

/-! ### The per-key reachability invariant -/

/-- Invariant relating the in-memory state and the directory to the abstract
segment list of one key of interest, after any number of appends from a fresh
WAL over an empty directory.  `Q` constrains the names of all files that do
not parse to the key's hash; `bound` dominates every sequence number in use
for the key. -/
structure KInv (hf : List Nat → Nat) (key : Key) (Q : List Char → Prop) (bound : Nat)
    (wal : Wal) (fs : Fs) (segs : List Seg) : Prop where
  filterEq : fs.filter (isKFileTest (hf key.bytes)) = segs.map (segFile key (hf key.bytes))
  others : ∀ f ∈ fs, parsedHash f.name ≠ some (hf key.bytes) → Q f.name
  segSorted : segs.Pairwise (fun a b => a.seq < b.seq)
  segBound : ∀ s ∈ segs, 1 ≤ s.seq ∧ s.seq ≤ bound
  framesWf : ∀ s ∈ segs, ∀ fr ∈ s.frames, fr.wf
  tables : match segs.getLast? with
    | none => lookupA wal.activeSegments (hf key.bytes) = none ∧
        lookupA wal.nextSequence (hf key.bytes) = none
    | some s => lookupA wal.activeSegments (hf key.bytes) =
          some ⟨generateFilename key (hf key.bytes) s.seq, s.seq, s.exp⟩ ∧
        lookupA wal.nextSequence (hf key.bytes) = some (s.seq + 1)
  otherActive : ∀ h' a, h' ≠ hf key.bytes → lookupA wal.activeSegments h' = some a →
    parsedHash a.filename ≠ some (hf key.bytes) ∧ Q a.filename

theorem KInv.initial (hf : List Nat → Nat) (key : Key) (Q : List Char → Prop)
    (opts : WalOptions) : KInv hf key Q 0 ⟨opts, [], []⟩ [] [] := by
  refine ⟨?_, ?_, ?_, ?_, ?_, ?_, ?_⟩
  · rfl
  · intro f hf; cases hf
  · exact List.Pairwise.nil
  · intro s hs; cases hs
  · intro s hs; cases hs
  · simp [lookupA]
  · intro h' a _ ha; simp [lookupA] at ha

theorem pairwise_seq_inj {segs : List Seg}
    (hp : segs.Pairwise (fun a b => a.seq < b.seq)) :
    ∀ a ∈ segs, ∀ b ∈ segs, a.seq = b.seq → a = b := by
  induction segs with
  | nil => intro a ha; cases ha
  | cons x rest ih =>
    intro a ha b hb heq
    rcases List.mem_cons.mp ha with rfl | ha' <;> rcases List.mem_cons.mp hb with rfl | hb'
    · rfl
    · exact absurd heq (by have := (List.pairwise_cons.mp hp).1 b hb'; omega)
    · exact absurd heq (by have := (List.pairwise_cons.mp hp).1 a ha'; omega)
    · exact ih (List.pairwise_cons.mp hp).2 a ha' b hb' heq

theorem pairwise_le_last {segs : List Seg} {s : Seg}
    (hp : segs.Pairwise (fun a b => a.seq < b.seq)) (hl : segs.getLast? = some s) :
    ∀ a ∈ segs, a.seq ≤ s.seq := by
  obtain ⟨ys, rfl⟩ := List.getLast?_eq_some_iff.mp hl
  intro a ha
  rcases List.mem_append.mp ha with hfront | hlast
  · have := (List.pairwise_append.mp hp).2.2 a hfront s (by simp)
    omega
  · rw [List.mem_singleton.mp hlast]

theorem generate_name_inj (key key' : Key) {keyHash s s' : Nat}
    (hh : keyHash < 2 ^ 64) (hs : s < 2 ^ 64) (hs' : s' < 2 ^ 64)
    (heq : generateFilename key keyHash s = generateFilename key' keyHash s') : s = s' := by
  have h1 := parseFilename_generate key hh hs
  have h2 := parseFilename_generate key' hh hs'
  rw [heq, h2] at h1
  simpa using h1.symm

/-! ### Symbolic evaluation of the append path -/

theorem getOrCreate_active (hf : List Nat → Nat) (wal : Wal) (fs : Fs) (now : Nat)
    (key : Key) (a : ActiveSegment)
    (hact : lookupA wal.activeSegments (hf key.bytes) = some a)
    (hnow : ¬ now ≥ a.expirationTimestamp) :
    getOrCreateActiveSegment hf wal fs now key = ⟨wal, fs, hf key.bytes⟩ := by
  rw [getOrCreateActiveSegment]
  simp only [hact, if_neg hnow]
  rw [if_pos (by simp [hact])]

theorem getOrCreate_create_none (hf : List Nat → Nat) (wal : Wal) (fs : Fs) (now : Nat)
    (key : Key) (seqv : Nat)
    (hact : lookupA wal.activeSegments (hf key.bytes) = none)
    (hseq : (lookupA wal.nextSequence (hf key.bytes)).getD 1 = seqv) :
    getOrCreateActiveSegment hf wal fs now key =
      ⟨⟨wal.options,
        insertA wal.activeSegments (hf key.bytes)
          ⟨generateFilename key (hf key.bytes) seqv, seqv, now + segmentDuration wal.options⟩,
        insertA wal.nextSequence (hf key.bytes) (seqv + 1)⟩,
       insertFs fs (generateFilename key (hf key.bytes) seqv)
         ((lookupFs fs (generateFilename key (hf key.bytes) seqv)).getD [] ++
           segmentHeaderBytes key (now + segmentDuration wal.options)),
       hf key.bytes⟩ := by
  rw [getOrCreateActiveSegment]
  simp only [hact]
  rw [if_neg (by simp [hact])]
  simp only [hseq]

theorem getOrCreate_create_rotate (hf : List Nat → Nat) (wal : Wal) (fs : Fs) (now : Nat)
    (key : Key) (a : ActiveSegment) (seqv : Nat)
    (hact : lookupA wal.activeSegments (hf key.bytes) = some a)
    (hnow : now ≥ a.expirationTimestamp)
    (hseq : (lookupA wal.nextSequence (hf key.bytes)).getD 1 = seqv) :
    getOrCreateActiveSegment hf wal fs now key =
      ⟨⟨wal.options,
        insertA (eraseA wal.activeSegments (hf key.bytes)) (hf key.bytes)
          ⟨generateFilename key (hf key.bytes) seqv, seqv, now + segmentDuration wal.options⟩,
        insertA wal.nextSequence (hf key.bytes) (seqv + 1)⟩,
       insertFs fs (generateFilename key (hf key.bytes) seqv)
         ((lookupFs fs (generateFilename key (hf key.bytes) seqv)).getD [] ++
           segmentHeaderBytes key (now + segmentDuration wal.options)),
       hf key.bytes⟩ := by
  rw [getOrCreateActiveSegment]
  simp only [hact, if_pos hnow]
  rw [if_neg (by simp [lookupA_eraseA_self])]
  simp only [hseq]

theorem appendEntry_eval (hf : List Nat → Nat) (wal : Wal) (fs : Fs) (now : Nat) (key : Key)
    (header : Option (List Nat)) (content : List Nat) (durable : Bool)
    (r : SegResult) (a : ActiveSegment)
    (hhdr : (header.getD []).length ≤ 65535)
    (hgoc : getOrCreateActiveSegment hf wal fs now key = r)
    (hact : lookupA r.wal.activeSegments r.keyHash = some a) :
    appendEntry hf wal fs now key header content durable =
      .ok ⟨r.wal,
        insertFs r.fs a.filename
          ((lookupFs r.fs a.filename).getD [] ++ recordFrame header content),
        ⟨r.keyHash, a.sequenceNumber,
          ((lookupFs r.fs a.filename).getD []).length - (8 + 8 + 8 + 8 + key.bytes.length)⟩⟩ := by
  rw [appendEntry, if_neg (by simp only [maxHeaderSize, gt_iff_lt, not_lt]; exact hhdr)]
  simp only [hgoc, hact]

theorem KInv.segFile_mem {hf : List Nat → Nat} {key : Key} {Q : List Char → Prop}
    {bound : Nat} {wal : Wal} {fs : Fs} {segs : List Seg}
    (hinv : KInv hf key Q bound wal fs segs) {s : Seg} (hs : s ∈ segs) :
    segFile key (hf key.bytes) s ∈ fs := by
  have h1 : segFile key (hf key.bytes) s ∈ segs.map (segFile key (hf key.bytes)) :=
    List.mem_map_of_mem _ hs
  rw [← hinv.filterEq] at h1
  exact (List.mem_filter.mp h1).1

theorem KInv.kfile_eq {hf : List Nat → Nat} {key : Key} {Q : List Char → Prop}
    {bound : Nat} {wal : Wal} {fs : Fs} {segs : List Seg}
    (hinv : KInv hf key Q bound wal fs segs)
    (hh64 : hf key.bytes < 2 ^ 64) (hb64 : bound < 2 ^ 64) {s : Seg} (hs : s ∈ segs) :
    ∀ f ∈ fs, f.name = generateFilename key (hf key.bytes) s.seq →
      f = segFile key (hf key.bytes) s := by
  intro f hfmem hname
  have hs64 : s.seq < 2 ^ 64 := lt_of_le_of_lt (hinv.segBound s hs).2 hb64
  have hP : isKFileTest (hf key.bytes) f = true := by
    simp only [isKFileTest, decide_eq_true_eq, parsedHash, hname]
    rw [parseFilename_generate key hh64 hs64]
    rfl
  have hmem2 : f ∈ fs.filter (isKFileTest (hf key.bytes)) := List.mem_filter.mpr ⟨hfmem, hP⟩
  rw [hinv.filterEq] at hmem2
  obtain ⟨s', hs', hfeq⟩ := List.mem_map.mp hmem2
  have hs'64 : s'.seq < 2 ^ 64 := lt_of_le_of_lt (hinv.segBound s' hs').2 hb64
  have hname' : generateFilename key (hf key.bytes) s'.seq =
      generateFilename key (hf key.bytes) s.seq := by
    rw [show generateFilename key (hf key.bytes) s'.seq = (segFile key (hf key.bytes) s').name
      from rfl, hfeq, hname]
  have hseqeq : s'.seq = s.seq := generate_name_inj key key hh64 hs'64 hs64 hname'
  have : s' = s := pairwise_seq_inj hinv.segSorted s' hs' s hs hseqeq
  rw [← hfeq, this]

theorem KInv.lookup_segFile {hf : List Nat → Nat} {key : Key} {Q : List Char → Prop}
    {bound : Nat} {wal : Wal} {fs : Fs} {segs : List Seg}
    (hinv : KInv hf key Q bound wal fs segs)
    (hh64 : hf key.bytes < 2 ^ 64) (hb64 : bound < 2 ^ 64) {s : Seg} (hs : s ∈ segs) :
    lookupFs fs (generateFilename key (hf key.bytes) s.seq) =
      some (segmentHeaderBytes key s.exp ++ framesBytes s.frames) :=
  lookupFs_of_unique (hinv.segFile_mem hs) (hinv.kfile_eq hh64 hb64 hs)

theorem KInv.fresh_name {hf : List Nat → Nat} {key : Key} {Q : List Char → Prop}
    {bound : Nat} {wal : Wal} {fs : Fs} {segs : List Seg}
    (hinv : KInv hf key Q bound wal fs segs)
    (hh64 : hf key.bytes < 2 ^ 64) (hb64 : bound < 2 ^ 64) {q : Nat} (hq64 : q < 2 ^ 64)
    (hq : ∀ s ∈ segs, s.seq ≠ q) :
    ∀ f ∈ fs, f.name ≠ generateFilename key (hf key.bytes) q := by
  intro f hfmem hname
  have hP : isKFileTest (hf key.bytes) f = true := by
    simp only [isKFileTest, decide_eq_true_eq, parsedHash, hname]
    rw [parseFilename_generate key hh64 hq64]
    rfl
  have hmem2 : f ∈ fs.filter (isKFileTest (hf key.bytes)) := List.mem_filter.mpr ⟨hfmem, hP⟩
  rw [hinv.filterEq] at hmem2
  obtain ⟨s', hs', hfeq⟩ := List.mem_map.mp hmem2
  have hs'64 : s'.seq < 2 ^ 64 := lt_of_le_of_lt (hinv.segBound s' hs').2 hb64
  have hname' : generateFilename key (hf key.bytes) s'.seq =
      generateFilename key (hf key.bytes) q := by
    rw [show generateFilename key (hf key.bytes) s'.seq = (segFile key (hf key.bytes) s').name
      from rfl, hfeq, hname]
  exact hq s' hs' (generate_name_inj key key hh64 hs'64 hq64 hname')

/-- From any invariant state, a targeted read addressed at a recorded frame of
one of the key's segments returns exactly that frame's content. -/
theorem KInv.readEntry_frame {hf : List Nat → Nat} {key : Key} {Q : List Char → Prop}
    {bound : Nat} {wal : Wal} {fs : Fs} {segs : List Seg}
    (hinv : KInv hf key Q bound wal fs segs)
    (hh64 : hf key.bytes < 2 ^ 64) (hb64 : bound < 2 ^ 64)
    (hklen : key.bytes.length < 2 ^ 64)
    {s : Seg} (hs : s ∈ segs) {prevFrames : List Frame} {fr : Frame}
    (hfr : s.frames = prevFrames ++ [fr]) :
    readEntryAt fs ⟨hf key.bytes, s.seq, (framesBytes prevFrames).length⟩ = .ok fr.content := by
  have hs64 : s.seq < 2 ^ 64 := lt_of_le_of_lt (hinv.segBound s hs).2 hb64
  have hfind : fs.find? (fun f => decide (parseFilename f.name = some (hf key.bytes, s.seq))) =
      some (segFile key (hf key.bytes) s) := by
    apply find?_unique _ (hinv.segFile_mem hs)
    · simp only [segFile, decide_eq_true_eq]
      exact parseFilename_generate key hh64 hs64
    · intro y hy hyp
      simp only [decide_eq_true_eq] at hyp
      have hname : y.name = generateFilename key (hf key.bytes) s.seq → _ :=
        hinv.kfile_eq hh64 hb64 hs y hy
      have hP : isKFileTest (hf key.bytes) y = true := by
        simp [isKFileTest, parsedHash, hyp]
      have hmem2 : y ∈ fs.filter (isKFileTest (hf key.bytes)) := List.mem_filter.mpr ⟨hy, hP⟩
      rw [hinv.filterEq] at hmem2
      obtain ⟨s', hs', hfeq⟩ := List.mem_map.mp hmem2
      have hs'64 : s'.seq < 2 ^ 64 := lt_of_le_of_lt (hinv.segBound s' hs').2 hb64
      have hparse' : parseFilename y.name = some (hf key.bytes, s'.seq) := by
        rw [← hfeq, segFile]
        exact parseFilename_generate key hh64 hs'64
      rw [hyp] at hparse'
      have hseq : s.seq = s'.seq := by simpa using hparse'
      have : s' = s := pairwise_seq_inj hinv.segSorted s' hs' s hs hseq.symm
      rw [← hfeq, this]
  rw [readEntryAt]
  simp only [hfind]
  have hwf : fr.wf := hinv.framesWf s hs fr (by rw [hfr]; simp)
  have hcontent : (segFile key (hf key.bytes) s).content =
      segmentHeaderBytes key s.exp ++
        (framesBytes prevFrames ++ (recordFrame fr.header fr.content ++ [])) := by
    simp only [segFile, hfr, framesBytes_append, framesBytes_cons, framesBytes_nil,
      List.append_nil]
  rw [hcontent]
  exact readEntryFromFile_frame key s.exp (framesBytes prevFrames) fr.header fr.content []
    hklen hwf.1 hwf.2

/-- Appending to the key when a fresh segment is created (first segment, or
rotation of an expired one).  `AS` is the active-segment table after the
rotation check, `seqv` the sequence number taken from the next-sequence
table. -/
theorem kInv_step_key_create (hf : List Nat → Nat) (key : Key) (Q : List Char → Prop)
    (bound : Nat) (wal : Wal) (fs : Fs) (segs : List Seg)
    (header : Option (List Nat)) (content : List Nat) (durable : Bool) (now : Nat)
    (AS : List (Nat × ActiveSegment)) (seqv : Nat)
    (hinv : KInv hf key Q bound wal fs segs)
    (hh64 : hf key.bytes < 2 ^ 64) (hb64 : bound + 1 < 2 ^ 64)
    (hhdr : (header.getD []).length ≤ 65535) (hcont : content.length < 2 ^ 64)
    (hgoc : getOrCreateActiveSegment hf wal fs now key =
      ⟨⟨wal.options,
        insertA AS (hf key.bytes)
          ⟨generateFilename key (hf key.bytes) seqv, seqv,
            now + segmentDuration wal.options⟩,
        insertA wal.nextSequence (hf key.bytes) (seqv + 1)⟩,
       insertFs fs (generateFilename key (hf key.bytes) seqv)
         ((lookupFs fs (generateFilename key (hf key.bytes) seqv)).getD [] ++
           segmentHeaderBytes key (now + segmentDuration wal.options)),
       hf key.bytes⟩)
    (hASne : ∀ h', h' ≠ hf key.bytes → lookupA AS h' = lookupA wal.activeSegments h')
    (hseq_gt : ∀ s ∈ segs, s.seq < seqv) (hseq_pos : 1 ≤ seqv) (hseq_le : seqv ≤ bound + 1) :
    ∃ res, appendEntry hf wal fs now key header content durable = .ok res ∧
      KInv hf key Q (bound + 1) res.wal res.fs
        (segs ++ [⟨seqv, now + segmentDuration wal.options, [⟨header, content⟩]⟩]) ∧
      res.ref = ⟨hf key.bytes, seqv, 0⟩ := by
  set h := hf key.bytes with hh
  set nm : List Char := generateFilename key h seqv with hnm
  set exp : Nat := now + segmentDuration wal.options with hexp
  set segH : List Nat := segmentHeaderBytes key exp with hsegH
  set A : ActiveSegment := ⟨nm, seqv, exp⟩ with hA
  have hq64 : seqv < 2 ^ 64 := by omega
  have hfresh : ∀ f ∈ fs, f.name ≠ nm :=
    hinv.fresh_name hh64 (by omega) hq64 (fun s hs => by have := hseq_gt s hs; omega)
  have hlook : lookupFs fs nm = none := lookupFs_eq_none hfresh
  rw [hlook] at hgoc
  simp only [Option.getD_none, List.nil_append] at hgoc
  have hparse : parseFilename nm = some (h, seqv) := parseFilename_generate key hh64 hq64
  have hph : parsedHash nm = some h := by rw [parsedHash, hparse]; rfl
  have hfs2 : insertFs fs nm segH = fs ++ [⟨nm, segH⟩] := insertFs_of_not_mem _ hfresh
  have hactive : lookupA (insertA AS h A) h = some A := lookupA_insertA_self _ _ _
  have happ := appendEntry_eval hf wal fs now key header content durable _ A hhdr hgoc hactive
  rw [lookupFs_insertFs_self] at happ
  simp only [Option.getD_some] at happ
  have hofs : segH.length - (8 + 8 + 8 + 8 + key.bytes.length) = 0 := by
    rw [hsegH, segmentHeaderBytes_length]; omega
  rw [hofs] at happ
  refine ⟨_, happ, ?_, rfl⟩
  set newSeg : Seg := ⟨seqv, exp, [⟨header, content⟩]⟩ with hnew
  have hfe2 : (insertFs fs nm segH).filter (isKFileTest h) =
      segs.map (segFile key h) ++ [⟨nm, segH⟩] := by
    rw [hfs2, List.filter_append, hinv.filterEq]
    have : List.filter (isKFileTest h) [⟨nm, segH⟩] = [⟨nm, segH⟩] := by
      rw [List.filter_cons_of_pos (by simpa [isKFileTest] using hph)]
      rfl
    rw [this]
  have hnames : ∀ f ∈ segs.map (segFile key h), f.name ≠ (⟨nm, segH⟩ : FsFile).name := by
    intro f hfmem heq
    obtain ⟨s', hs', hfeq⟩ := List.mem_map.mp hfmem
    have hs'64 : s'.seq < 2 ^ 64 := lt_of_le_of_lt (hinv.segBound s' hs').2 (by omega)
    have : generateFilename key h s'.seq = nm := by rw [← hfeq] at heq; exact heq
    have := generate_name_inj key key hh64 hs'64 hq64 this
    have := hseq_gt s' hs'
    omega
  have hfe3 : (insertFs (insertFs fs nm segH) nm (segH ++ recordFrame header content)).filter
      (isKFileTest h) = segs.map (segFile key h) ++ [⟨nm, segH ++ recordFrame header content⟩] :=
    filter_insertFs_last _ hfe2 hnames hph
  refine ⟨?_, ?_, ?_, ?_, ?_, ?_, ?_⟩
  · rw [hfe3, List.map_append]
    simp [segFile, hnew, hsegH, framesBytes]
  · intro f hfmem hphf
    rcases mem_insertFs hfmem with rfl | hf2
    · exact absurd hph hphf
    · rw [hfs2] at hf2
      rcases List.mem_append.mp hf2 with hfin | hfnew
      · exact hinv.others f hfin hphf
      · rw [List.mem_singleton.mp hfnew] at hphf
        exact absurd hph hphf
  · rw [List.pairwise_append]
    exact ⟨hinv.segSorted, List.pairwise_singleton _ _,
      fun a ha b hb => by rw [List.mem_singleton.mp hb]; exact hseq_gt a ha⟩
  · intro s hs
    rcases List.mem_append.mp hs with hsin | hsnew
    · have := hinv.segBound s hsin; omega
    · rw [List.mem_singleton.mp hsnew]; exact ⟨hseq_pos, hseq_le⟩
  · intro s hs fr hfr
    rcases List.mem_append.mp hs with hsin | hsnew
    · exact hinv.framesWf s hsin fr hfr
    · rw [List.mem_singleton.mp hsnew] at hfr
      rcases List.mem_singleton.mp hfr with rfl
      exact ⟨hhdr, hcont⟩
  · rw [List.getLast?_concat]
    exact ⟨hactive, lookupA_insertA_self _ _ _⟩
  · intro h' a hne ha
    rw [lookupA_insertA_ne _ _ hne, hASne h' hne] at ha
    exact hinv.otherActive h' a hne ha

/-- Appending to the key when the active segment is still fresh: the frame is
appended to the last segment's file. -/
theorem kInv_step_key_append (hf : List Nat → Nat) (key : Key) (Q : List Char → Prop)
    (bound : Nat) (wal : Wal) (fs : Fs) (ys : List Seg) (s : Seg)
    (header : Option (List Nat)) (content : List Nat) (durable : Bool) (now : Nat)
    (hinv : KInv hf key Q bound wal fs (ys ++ [s]))
    (hh64 : hf key.bytes < 2 ^ 64) (hb64 : bound + 1 < 2 ^ 64)
    (hklen : key.bytes.length < 2 ^ 64)
    (hhdr : (header.getD []).length ≤ 65535) (hcont : content.length < 2 ^ 64)
    (hrot : ¬ now ≥ s.exp) :
    ∃ res, appendEntry hf wal fs now key header content durable = .ok res ∧
      KInv hf key Q (bound + 1) res.wal res.fs
        (ys ++ [⟨s.seq, s.exp, s.frames ++ [⟨header, content⟩]⟩]) ∧
      res.ref = ⟨hf key.bytes, s.seq, (framesBytes s.frames).length⟩ := by
  set h := hf key.bytes with hh
  set nm : List Char := generateFilename key h s.seq with hnm
  have hlastmem : s ∈ ys ++ [s] := by simp
  have hlast : (ys ++ [s]).getLast? = some s := List.getLast?_concat _
  have htab := hinv.tables
  rw [hlast] at htab
  have hact : lookupA wal.activeSegments h = some ⟨nm, s.seq, s.exp⟩ := htab.1
  have hgoc := getOrCreate_active hf wal fs now key _ hact (by simpa using hrot)
  have happ := appendEntry_eval hf wal fs now key header content durable _
    ⟨nm, s.seq, s.exp⟩ hhdr hgoc hact
  have hs64 : s.seq < 2 ^ 64 := lt_of_le_of_lt (hinv.segBound s hlastmem).2 (by omega)
  have hlook : lookupFs fs nm = some (segmentHeaderBytes key s.exp ++ framesBytes s.frames) :=
    hinv.lookup_segFile hh64 (by omega) hlastmem
  rw [hlook] at happ
  simp only [Option.getD_some] at happ
  have hofs : (segmentHeaderBytes key s.exp ++ framesBytes s.frames).length -
      (8 + 8 + 8 + 8 + key.bytes.length) = (framesBytes s.frames).length := by
    rw [List.length_append, segmentHeaderBytes_length]; omega
  rw [hofs] at happ
  refine ⟨_, happ, ?_, rfl⟩
  set newSeg : Seg := ⟨s.seq, s.exp, s.frames ++ [⟨header, content⟩]⟩ with hnewSeg
  have hparse : parseFilename nm = some (h, s.seq) := parseFilename_generate key hh64 hs64
  have hph : parsedHash nm = some h := by rw [parsedHash, hparse]; rfl
  have hfe : fs.filter (isKFileTest h) =
      ys.map (segFile key h) ++ [segFile key h s] := by
    rw [hinv.filterEq, List.map_append]; rfl
  have hnames : ∀ f ∈ ys.map (segFile key h), f.name ≠ (segFile key h s).name := by
    intro f hfmem heq
    obtain ⟨s', hs', hfeq⟩ := List.mem_map.mp hfmem
    have hs'mem : s' ∈ ys ++ [s] := List.mem_append.mpr (Or.inl hs')
    have hs'64 : s'.seq < 2 ^ 64 := lt_of_le_of_lt (hinv.segBound s' hs'mem).2 (by omega)
    have hlt : s'.seq < s.seq :=
      (List.pairwise_append.mp hinv.segSorted).2.2 s' hs' s (by simp)
    have : generateFilename key h s'.seq = generateFilename key h s.seq := by
      rw [← hfeq] at heq; exact heq
    have := generate_name_inj key key hh64 hs'64 hs64 this
    omega
  have hfe3 := filter_insertFs_last ((segmentHeaderBytes key s.exp ++ framesBytes s.frames) ++
    recordFrame header content) hfe hnames (by exact hph)
  rw [show (segFile key h s).name = nm from rfl] at hfe3
  refine ⟨?_, ?_, ?_, ?_, ?_, ?_, ?_⟩
  · rw [hfe3, List.map_append]
    simp [segFile, hnewSeg, framesBytes_append, framesBytes]
  · intro f hfmem hphf
    rcases mem_insertFs hfmem with rfl | hf2
    · exact absurd hph hphf
    · exact hinv.others f hf2 hphf
  · have hmapeq : (ys ++ [newSeg]).map Seg.seq = (ys ++ [s]).map Seg.seq := by
      simp [hnewSeg]
    have h1 : ((ys ++ [s]).map Seg.seq).Pairwise (· < ·) :=
      (List.pairwise_map).mpr hinv.segSorted
    rw [← hmapeq] at h1
    exact (List.pairwise_map).mp h1
  · intro t ht
    rcases List.mem_append.mp ht with htin | htnew
    · have := hinv.segBound t (List.mem_append.mpr (Or.inl htin)); omega
    · rw [List.mem_singleton.mp htnew]
      have := hinv.segBound s hlastmem
      simp only [hnewSeg]
      omega
  · intro t ht fr hfr
    rcases List.mem_append.mp ht with htin | htnew
    · exact hinv.framesWf t (List.mem_append.mpr (Or.inl htin)) fr hfr
    · rw [List.mem_singleton.mp htnew] at hfr
      simp only [hnewSeg] at hfr
      rcases List.mem_append.mp hfr with hfin | hfnew
      · exact hinv.framesWf s hlastmem fr hfin
      · rcases List.mem_singleton.mp hfnew with rfl
        exact ⟨hhdr, hcont⟩
  · rw [List.getLast?_concat]
    exact ⟨htab.1, htab.2⟩
  · exact hinv.otherActive

theorem KInv.mono {hf : List Nat → Nat} {key : Key} {Q : List Char → Prop}
    {b b' : Nat} {wal : Wal} {fs : Fs} {segs : List Seg}
    (hinv : KInv hf key Q b wal fs segs) (hb : b ≤ b') : KInv hf key Q b' wal fs segs :=
  { hinv with
    segBound := fun s hs => ⟨(hinv.segBound s hs).1, le_trans (hinv.segBound s hs).2 hb⟩ }

/-- An append to a different key through an already-active segment leaves the
key's invariant untouched. -/
theorem kInv_step_other_active (hf : List Nat → Nat) (key : Key) (Q : List Char → Prop)
    (bound : Nat) (wal : Wal) (fs : Fs) (segs : List Seg) (okey : Key)
    (header : Option (List Nat)) (content : List Nat) (durable : Bool) (now : Nat)
    (a : ActiveSegment)
    (hinv : KInv hf key Q bound wal fs segs)
    (hne : hf okey.bytes ≠ hf key.bytes)
    (hhdr : (header.getD []).length ≤ 65535)
    (hact : lookupA wal.activeSegments (hf okey.bytes) = some a)
    (hrot : ¬ now ≥ a.expirationTimestamp) :
    ∃ res, appendEntry hf wal fs now okey header content durable = .ok res ∧
      KInv hf key Q bound res.wal res.fs segs := by
  have hgoc := getOrCreate_active hf wal fs now okey a hact hrot
  have happ := appendEntry_eval hf wal fs now okey header content durable _ a hhdr hgoc hact
  obtain ⟨hpa, hQa⟩ := hinv.otherActive _ a hne hact
  refine ⟨_, happ, ?_⟩
  refine ⟨?_, ?_, hinv.segSorted, hinv.segBound, hinv.framesWf, hinv.tables, hinv.otherActive⟩
  · rw [filter_insertFs_false _ hpa, hinv.filterEq]
  · intro f hfmem hphf
    rcases mem_insertFs hfmem with rfl | hf2
    · exact hQa
    · exact hinv.others f hf2 hphf

/-- An append to a different key that creates a segment for that key leaves
the key's invariant untouched. -/
theorem kInv_step_other_create (hf : List Nat → Nat) (key : Key) (Q : List Char → Prop)
    (bound : Nat) (wal : Wal) (fs : Fs) (segs : List Seg) (okey : Key)
    (header : Option (List Nat)) (content : List Nat) (durable : Bool) (now : Nat)
    (AS : List (Nat × ActiveSegment)) (seqv : Nat)
    (hinv : KInv hf key Q bound wal fs segs)
    (hne : hf okey.bytes ≠ hf key.bytes)
    (hQg : ∀ q, Q (generateFilename okey (hf okey.bytes) q))
    (hhdr : (header.getD []).length ≤ 65535)
    (hgoc : getOrCreateActiveSegment hf wal fs now okey =
      ⟨⟨wal.options,
        insertA AS (hf okey.bytes)
          ⟨generateFilename okey (hf okey.bytes) seqv, seqv,
            now + segmentDuration wal.options⟩,
        insertA wal.nextSequence (hf okey.bytes) (seqv + 1)⟩,
       insertFs fs (generateFilename okey (hf okey.bytes) seqv)
         ((lookupFs fs (generateFilename okey (hf okey.bytes) seqv)).getD [] ++
           segmentHeaderBytes okey (now + segmentDuration wal.options)),
       hf okey.bytes⟩)
    (hASne : ∀ k, k ≠ hf okey.bytes → lookupA AS k = lookupA wal.activeSegments k) :
    ∃ res, appendEntry hf wal fs now okey header content durable = .ok res ∧
      KInv hf key Q bound res.wal res.fs segs := by
  set h' := hf okey.bytes with hh'
  set nm : List Char := generateFilename okey h' seqv with hnm
  set A : ActiveSegment := ⟨nm, seqv, now + segmentDuration wal.options⟩ with hA
  have hpnm : parsedHash nm ≠ some (hf key.bytes) := parsedHash_generate_ne hne
  have hactA : lookupA (insertA AS h' A) h' = some A := lookupA_insertA_self _ _ _
  have happ := appendEntry_eval hf wal fs now okey header content durable _ A hhdr hgoc hactA
  refine ⟨_, happ, ?_⟩
  have hactH : lookupA (insertA AS h' A) (hf key.bytes) =
      lookupA wal.activeSegments (hf key.bytes) := by
    rw [lookupA_insertA_ne _ _ (Ne.symm hne), hASne _ (Ne.symm hne)]
  have hnextH : lookupA (insertA wal.nextSequence h' (seqv + 1)) (hf key.bytes) =
      lookupA wal.nextSequence (hf key.bytes) := lookupA_insertA_ne _ _ (Ne.symm hne)
  refine ⟨?_, ?_, hinv.segSorted, hinv.segBound, hinv.framesWf, ?_, ?_⟩
  · rw [filter_insertFs_false _ hpnm, filter_insertFs_false _ hpnm, hinv.filterEq]
  · intro f hfmem hphf
    rcases mem_insertFs hfmem with rfl | hf2
    · exact hQg seqv
    · rcases mem_insertFs hf2 with rfl | hf3
      · exact hQg seqv
      · exact hinv.others f hf3 hphf
  · have htab := hinv.tables
    rcases hgl : segs.getLast? with _ | s <;> rw [hgl] at htab
    · exact ⟨by rw [hactH]; exact htab.1, by rw [hnextH]; exact htab.2⟩
    · exact ⟨by rw [hactH]; exact htab.1, by rw [hnextH]; exact htab.2⟩
  · intro k b hk hb
    by_cases hkh' : k = h'
    · subst hkh'
      rw [hactA] at hb
      obtain rfl : A = b := Option.some.inj hb
      exact ⟨hpnm, hQg seqv⟩
    · rw [lookupA_insertA_ne _ _ hkh', hASne _ hkh'] at hb
      exact hinv.otherActive k b hk hb

/-- Any well-formed append to the key succeeds and extends the abstract
segment list with exactly one frame, returning a reference to that frame. -/
theorem append_key_result (hf : List Nat → Nat) (key : Key) (Q : List Char → Prop)
    (bound : Nat) (wal : Wal) (fs : Fs) (segs : List Seg)
    (header : Option (List Nat)) (content : List Nat) (durable : Bool) (now : Nat)
    (hinv : KInv hf key Q bound wal fs segs)
    (hh64 : hf key.bytes < 2 ^ 64) (hb64 : bound + 1 < 2 ^ 64)
    (hklen : key.bytes.length < 2 ^ 64)
    (hhdr : (header.getD []).length ≤ 65535) (hcont : content.length < 2 ^ 64) :
    ∃ res segs' s prevFrames,
      appendEntry hf wal fs now key header content durable = .ok res ∧
      KInv hf key Q (bound + 1) res.wal res.fs segs' ∧
      flatContents segs' = flatContents segs ++ [content] ∧
      s ∈ segs' ∧ s.frames = prevFrames ++ [⟨header, content⟩] ∧
      res.ref = ⟨hf key.bytes, s.seq, (framesBytes prevFrames).length⟩ := by
  rcases hgl : segs.getLast? with _ | s
  · have hsegs : segs = [] := List.getLast?_eq_none_iff.mp hgl
    subst hsegs
    have htab := hinv.tables
    rw [hgl] at htab
    have hgoc := getOrCreate_create_none hf wal fs now key 1 htab.1 (by rw [htab.2]; rfl)
    obtain ⟨res, hres, hinv', href⟩ := kInv_step_key_create hf key Q bound wal fs []
      header content durable now wal.activeSegments 1 hinv hh64 hb64 hhdr hcont hgoc
      (fun _ _ => rfl) (fun s hs => by cases hs) (le_refl 1) (by omega)
    refine ⟨res, [] ++ [⟨1, now + segmentDuration wal.options, [⟨header, content⟩]⟩],
      ⟨1, now + segmentDuration wal.options, [⟨header, content⟩]⟩, [],
      hres, hinv', by simp [flatContents], by simp, by simp, ?_⟩
    rw [href]
    rfl
  · obtain ⟨ys, rfl⟩ := List.getLast?_eq_some_iff.mp hgl
    have hlastmem : s ∈ ys ++ [s] := by simp
    have hsle := pairwise_le_last hinv.segSorted hgl
    have hsb := hinv.segBound s hlastmem
    by_cases hrot : now ≥ s.exp
    · have htab := hinv.tables
      rw [hgl] at htab
      have hgoc := getOrCreate_create_rotate hf wal fs now key _ (s.seq + 1) htab.1 hrot
        (by rw [htab.2]; rfl)
      obtain ⟨res, hres, hinv', href⟩ := kInv_step_key_create hf key Q bound wal fs (ys ++ [s])
        header content durable now (eraseA wal.activeSegments (hf key.bytes)) (s.seq + 1)
        hinv hh64 hb64 hhdr hcont hgoc (fun k hk => lookupA_eraseA_ne _ hk)
        (fun t ht => by have := hsle t ht; omega) (by omega) (by omega)
      refine ⟨res, (ys ++ [s]) ++
          [⟨s.seq + 1, now + segmentDuration wal.options, [⟨header, content⟩]⟩],
        ⟨s.seq + 1, now + segmentDuration wal.options, [⟨header, content⟩]⟩, [],
        hres, hinv', by simp [flatContents], by simp, by simp, ?_⟩
      rw [href]
      rfl
    · obtain ⟨res, hres, hinv', href⟩ := kInv_step_key_append hf key Q bound wal fs ys s
        header content durable now hinv hh64 hb64 hklen hhdr hcont hrot
      refine ⟨res, _, ⟨s.seq, s.exp, s.frames ++ [⟨header, content⟩]⟩, s.frames,
        hres, hinv', by simp [flatContents], by simp, rfl, href⟩

/-- One trace step preserves the invariant and appends exactly the key's own
content (if any) to the recorded contents. -/
theorem kInv_step (hf : List Nat → Nat) (key : Key) (Q : List Char → Prop)
    (bound : Nat) (wal : Wal) (fs : Fs) (segs : List Seg) (op : AppendOp)
    (hinv : KInv hf key Q bound wal fs segs)
    (hh64 : hf key.bytes < 2 ^ 64) (hb64 : bound + 1 < 2 ^ 64)
    (hklen : key.bytes.length < 2 ^ 64)
    (hkop : op.key = key → (op.header.getD []).length ≤ 65535 ∧ op.content.length < 2 ^ 64)
    (hone : op.key ≠ key → hf op.key.bytes ≠ hf key.bytes)
    (hQg : op.key ≠ key → ∀ q, Q (generateFilename op.key (hf op.key.bytes) q)) :
    ∃ segs', KInv hf key Q (bound + 1) (runAppend hf (wal, fs) op).1
        (runAppend hf (wal, fs) op).2 segs' ∧
      flatContents segs' = flatContents segs ++ (if op.key = key then [op.content] else []) := by
  by_cases hk : op.key = key
  · obtain ⟨hhdr, hcont⟩ := hkop hk
    obtain ⟨res, segs', s, prevFrames, hres, hinv', hflat, -, -, -⟩ :=
      append_key_result hf key Q bound wal fs segs op.header op.content op.durable op.now
        hinv hh64 hb64 hklen hhdr hcont
    rw [← hk] at hres
    refine ⟨segs', ?_, by rw [hflat, if_pos hk]⟩
    rw [runAppend, hres]
    exact hinv'
  · have hne := hone hk
    have hQg' := hQg hk
    by_cases hbig : (op.header.getD []).length > maxHeaderSize
    · refine ⟨segs, ?_, by rw [if_neg hk]; simp⟩
      rw [runAppend, appendEntry, if_pos hbig]
      exact hinv.mono (by omega)
    · have hhdr : (op.header.getD []).length ≤ 65535 := by
        simp only [maxHeaderSize, gt_iff_lt, not_lt] at hbig
        exact hbig
      have hfin : ∀ res, appendEntry hf wal fs op.now op.key op.header op.content
          op.durable = .ok res → KInv hf key Q bound res.wal res.fs segs →
          ∃ segs', KInv hf key Q (bound + 1) (runAppend hf (wal, fs) op).1
            (runAppend hf (wal, fs) op).2 segs' ∧
            flatContents segs' = flatContents segs ++
              (if op.key = key then [op.content] else []) := by
        intro res hres hinv'
        refine ⟨segs, ?_, by rw [if_neg hk]; simp⟩
        rw [runAppend, hres]
        exact hinv'.mono (by omega)
      rcases hact : lookupA wal.activeSegments (hf op.key.bytes) with _ | a
      · have hgoc := getOrCreate_create_none hf wal fs op.now op.key
          ((lookupA wal.nextSequence (hf op.key.bytes)).getD 1) hact rfl
        obtain ⟨res, hres, hinv'⟩ := kInv_step_other_create hf key Q bound wal fs segs op.key
          op.header op.content op.durable op.now wal.activeSegments _ hinv hne hQg' hhdr hgoc
          (fun _ _ => rfl)
        exact hfin res hres hinv'
      · by_cases hrot : op.now ≥ a.expirationTimestamp
        · have hgoc := getOrCreate_create_rotate hf wal fs op.now op.key a
            ((lookupA wal.nextSequence (hf op.key.bytes)).getD 1) hact hrot rfl
          obtain ⟨res, hres, hinv'⟩ := kInv_step_other_create hf key Q bound wal fs segs op.key
            op.header op.content op.durable op.now
            (eraseA wal.activeSegments (hf op.key.bytes)) _ hinv hne hQg' hhdr hgoc
            (fun k hk' => lookupA_eraseA_ne _ hk')
          exact hfin res hres hinv'
        · obtain ⟨res, hres, hinv'⟩ := kInv_step_other_active hf key Q bound wal fs segs op.key
            op.header op.content op.durable op.now a hinv hne hhdr hact hrot
          exact hfin res hres hinv'

theorem kInv_fold (hf : List Nat → Nat) (key : Key) (Q : List Char → Prop)
    (ops : List AppendOp) :
    ∀ (bound : Nat) (wal : Wal) (fs : Fs) (segs : List Seg),
    KInv hf key Q bound wal fs segs →
    hf key.bytes < 2 ^ 64 → key.bytes.length < 2 ^ 64 →
    bound + ops.length < 2 ^ 64 →
    (∀ op ∈ ops, op.key = key →
      (op.header.getD []).length ≤ 65535 ∧ op.content.length < 2 ^ 64) →
    (∀ op ∈ ops, op.key ≠ key → hf op.key.bytes ≠ hf key.bytes) →
    (∀ op ∈ ops, op.key ≠ key → ∀ q, Q (generateFilename op.key (hf op.key.bytes) q)) →
    ∃ segs', KInv hf key Q (bound + ops.length) (ops.foldl (runAppend hf) (wal, fs)).1
        (ops.foldl (runAppend hf) (wal, fs)).2 segs' ∧
      flatContents segs' = flatContents segs ++ kContents ops key := by
  induction ops with
  | nil =>
    intro bound wal fs segs hinv _ _ _ _ _ _
    exact ⟨segs, by simpa using hinv, by simp [kContents]⟩
  | cons op rest ih =>
    intro bound wal fs segs hinv hh64 hklen hb hkop hone hQg
    obtain ⟨segs1, hinv1, hflat1⟩ := kInv_step hf key Q bound wal fs segs op hinv hh64
      (by simp at hb; omega) hklen (hkop op (List.mem_cons_self _ _))
      (hone op (List.mem_cons_self _ _)) (hQg op (List.mem_cons_self _ _))
    obtain ⟨segs2, hinv2, hflat2⟩ := ih (bound + 1) (runAppend hf (wal, fs) op).1
      (runAppend hf (wal, fs) op).2 segs1 hinv1 hh64 hklen (by simp at hb ⊢; omega)
      (fun o ho => hkop o (List.mem_cons_of_mem _ ho))
      (fun o ho => hone o (List.mem_cons_of_mem _ ho))
      (fun o ho => hQg o (List.mem_cons_of_mem _ ho))
    refine ⟨segs2, ?_, ?_⟩
    · have harith : bound + 1 + rest.length = bound + (op :: rest).length := by
        simp; omega
      rw [← harith]
      simpa [List.foldl_cons] using hinv2
    · rw [hflat2, hflat1, kContents]
      by_cases hk : op.key = key
      · simp [hk, kContents]
      · simp [hk, kContents]

/-- Main invariant theorem: after any trace of appends from a fresh WAL over
an empty directory, the state satisfies the key invariant with the recorded
contents being exactly the key's appended contents in order. -/
theorem kInv_trace (hf : List Nat → Nat) (key : Key) (Q : List Char → Prop)
    (opts : WalOptions) (ops : List AppendOp)
    (hh64 : hf key.bytes < 2 ^ 64) (hklen : key.bytes.length < 2 ^ 64)
    (hlen : ops.length < 2 ^ 64)
    (hkop : ∀ op ∈ ops, op.key = key →
      (op.header.getD []).length ≤ 65535 ∧ op.content.length < 2 ^ 64)
    (hone : ∀ op ∈ ops, op.key ≠ key → hf op.key.bytes ≠ hf key.bytes)
    (hQg : ∀ op ∈ ops, op.key ≠ key → ∀ q, Q (generateFilename op.key (hf op.key.bytes) q)) :
    ∃ segs, KInv hf key Q ops.length (runTrace hf opts ops).1 (runTrace hf opts ops).2 segs ∧
      flatContents segs = kContents ops key := by
  obtain ⟨segs, hinv, hflat⟩ := kInv_fold hf key Q ops 0 ⟨opts, [], []⟩ [] []
    (KInv.initial hf key Q opts) hh64 hklen (by omega) hkop hone hQg
  exact ⟨segs, by simpa [runTrace] using hinv, by simpa [flatContents] using hflat⟩

/-! ### Enumeration under the invariant -/

theorem collect_eq (hf : List Nat → Nat) (key : Key) (fs : Fs) (segs : List Seg)
    (hh64 : hf key.bytes < 2 ^ 64)
    (hsb : ∀ s ∈ segs, s.seq < 2 ^ 64)
    (hfe : fs.filter (isKFileTest (hf key.bytes)) = segs.map (segFile key (hf key.bytes)))
    (hoth : ∀ f ∈ fs, parsedHash f.name ≠ some (hf key.bytes) →
      startsWith (enumerationPre hf key) f.name = false) :
    collectSegmentFiles hf fs key =
      segs.map (fun s => (s.seq, segmentHeaderBytes key s.exp ++ framesBytes s.frames)) := by
  induction fs generalizing segs with
  | nil =>
    have h0 : segs.map (segFile key (hf key.bytes)) = [] := by simpa using hfe.symm
    have : segs = [] := List.map_eq_nil.mp h0
    subst this
    rfl
  | cons f rest ih =>
    by_cases hP : isKFileTest (hf key.bytes) f = true
    · rw [List.filter_cons_of_pos hP] at hfe
      match segs, hfe with
      | s :: segs', hfe =>
        have hfs : f = segFile key (hf key.bytes) s := by
          simpa using List.head_eq_of_cons_eq hfe
        have hrest : rest.filter (isKFileTest (hf key.bytes)) =
            segs'.map (segFile key (hf key.bytes)) := by
          simpa using List.tail_eq_of_cons_eq hfe
        have hs64 : s.seq < 2 ^ 64 := hsb s (List.mem_cons_self _ _)
        have hparse : parseFilename f.name = some (hf key.bytes, s.seq) := by
          rw [hfs]; exact parseFilename_generate key hh64 hs64
        have hpre : startsWith (enumerationPre hf key) f.name = true := by
          rw [hfs]; exact startsWith_enumerationPre hf key s.seq
        have hsuf : endsWith logSuffixChars f.name = true := by
          rw [hfs]; exact endsWith_generate key (hf key.bytes) s.seq
        rw [collectSegmentFiles, List.filterMap_cons]
        have hentry : (if startsWith (enumerationPre hf key) f.name &&
            endsWith logSuffixChars f.name then
            match parseFilename f.name with
            | some (_, sequence) => some (sequence, f.content)
            | none => none
          else none) = some (s.seq, f.content) := by
          rw [hpre, hsuf, hparse]
          rfl
        rw [hentry]
        have hcnt : f.content = segmentHeaderBytes key s.exp ++ framesBytes s.frames := by
          rw [hfs]
          rfl
        rw [hcnt, List.map_cons]
        rw [← collectSegmentFiles]
        rw [ih segs' (fun t ht => hsb t (List.mem_cons_of_mem _ ht)) hrest
          (fun g hg => hoth g (List.mem_cons_of_mem _ hg))]
    · rw [List.filter_cons_of_neg (by simpa using hP)] at hfe
      have hph : parsedHash f.name ≠ some (hf key.bytes) := by
        simpa [isKFileTest] using hP
      have hpre : startsWith (enumerationPre hf key) f.name = false :=
        hoth f (List.mem_cons_self _ _) hph
      rw [collectSegmentFiles, List.filterMap_cons]
      rw [show (if startsWith (enumerationPre hf key) f.name &&
          endsWith logSuffixChars f.name then
          match parseFilename f.name with
          | some (_, sequence) => some (sequence, f.content)
          | none => none
        else none) = none by rw [hpre]; rfl]
      rw [← collectSegmentFiles]
      exact ih segs (fun t ht => hsb t ht) hfe (fun g hg => hoth g (List.mem_cons_of_mem _ hg))

theorem flatMap_read_eq (key : Key) (hklen : key.bytes.length < 2 ^ 64) (segs : List Seg)
    (hwf : ∀ s ∈ segs, ∀ fr ∈ s.frames, fr.wf) :
    (segs.map (fun s =>
        (s.seq, segmentHeaderBytes key s.exp ++ framesBytes s.frames))).flatMap
      (fun p => (readRecordsFromSegment p.2).toOption.getD []) = flatContents segs := by
  induction segs with
  | nil => rfl
  | cons s rest ih =>
    simp only [List.map_cons, List.flatMap_cons]
    have hspec : readRecordsFromSegment
        (segmentHeaderBytes key s.exp ++ framesBytes s.frames) =
        .ok (s.frames.map Frame.content) := by
      have := readRecordsFromSegment_spec key s.exp s.frames [] hklen
        (hwf s (List.mem_cons_self _ _)) (by simp)
      simpa using this
    rw [hspec]
    rw [ih (fun t ht => hwf t (List.mem_cons_of_mem _ ht))]
    simp [flatContents, Except.toOption]

/-- Under the no-foreign-prefix invariant, `enumerate_records` returns exactly
the key's recorded contents in order. -/
theorem enumerateRecords_of_KInv {hf : List Nat → Nat} {key : Key} {bound : Nat}
    {wal : Wal} {fs : Fs} {segs : List Seg}
    (hinv : KInv hf key
      (fun nm => startsWith (enumerationPre hf key) nm = false) bound wal fs segs)
    (hh64 : hf key.bytes < 2 ^ 64) (hb64 : bound < 2 ^ 64)
    (hklen : key.bytes.length < 2 ^ 64) :
    enumerateRecords hf fs key = flatContents segs := by
  have hsb : ∀ s ∈ segs, s.seq < 2 ^ 64 :=
    fun s hs => lt_of_le_of_lt (hinv.segBound s hs).2 hb64
  have hcollect := collect_eq hf key fs segs hh64 hsb hinv.filterEq hinv.others
  rw [enumerateRecords, hcollect]
  have hsorted : (segs.map (fun s =>
      (s.seq, segmentHeaderBytes key s.exp ++ framesBytes s.frames))).Pairwise
      (fun a b => decide (a.1 ≤ b.1) = true) := by
    rw [List.pairwise_map]
    exact hinv.segSorted.imp (fun h => by simpa using Nat.le_of_lt (by simpa using h))
  rw [List.mergeSort_of_sorted hsorted]
  exact flatMap_read_eq key hklen segs hinv.framesWf

/-! ### Claims -/

/-- C1: for every successful `append_entry(k, h, c, durable)` that returns an
`EntryRef r`, a subsequent `read_entry_at(r)` on the unchanged store returns
exactly the content bytes `c` (including when `c` is empty), for every key,
every header of length at most 65535, and either value of `durable`.  The
store may be any state reached by a trace of appends; the hash function is an
arbitrary `u64`-valued function that does not collide between the key and the
other keys of the trace (`DefaultHasher` is unspecified, so the model is
parametric in it), and content lengths and the trace length are within
`u64` machine bounds. -/
theorem claim_C1 (hf : List Nat → Nat) (opts : WalOptions) (key : Key)
    (ops : List AppendOp) (header : Option (List Nat)) (content : List Nat)
    (durable : Bool) (now : Nat) (res : AppendSuccess)
    (hh64 : hf key.bytes < 2 ^ 64) (hklen : key.bytes.length < 2 ^ 64)
    (hlen : ops.length + 1 < 2 ^ 64)
    (hkop : ∀ op ∈ ops, op.key = key →
      (op.header.getD []).length ≤ 65535 ∧ op.content.length < 2 ^ 64)
    (hone : ∀ op ∈ ops, op.key ≠ key → hf op.key.bytes ≠ hf key.bytes)
    (hhdr : (header.getD []).length ≤ 65535) (hcont : content.length < 2 ^ 64)
    (happ : appendEntry hf (runTrace hf opts ops).1 (runTrace hf opts ops).2 now key
      header content durable = .ok res) :
    readEntryAt res.fs res.ref = .ok content := by
  obtain ⟨segs, hinv, -⟩ := kInv_trace hf key (fun _ => True) opts ops hh64 hklen
    (by omega) hkop hone (fun _ _ _ _ => trivial)
  obtain ⟨res', segs', s, prev, happ', hinv', -, hsmem, hsfr, href⟩ :=
    append_key_result hf key (fun _ => True) ops.length _ _ segs header content durable now
      hinv hh64 (by omega) hklen hhdr hcont
  rw [happ'] at happ
  obtain rfl : res' = res := Except.ok.inj happ
  have hread := hinv'.readEntry_frame hh64 (by omega) hklen hsmem hsfr
  rw [href]
  exact hread

/-- C2 (amended): for every key `k` and every trace of successful appends
(the appends to `k` being `a_1, …, a_n`), `enumerate_records(k)` yields
exactly `content(a_1), …, content(a_n)` in that order — segments in ascending
parsed sequence order, records within a segment in file order — **provided**
every append to another key uses a different key hash and generates filenames
that do not start with `k`'s enumeration prefix `{sanitized}-{key_hash}-`.
Without the prefix proviso the original claim fails
(`claim_C2_counterexample`). -/
theorem claim_C2 (hf : List Nat → Nat) (opts : WalOptions) (key : Key)
    (ops : List AppendOp)
    (hh64 : hf key.bytes < 2 ^ 64) (hklen : key.bytes.length < 2 ^ 64)
    (hlen : ops.length < 2 ^ 64)
    (hkop : ∀ op ∈ ops, op.key = key →
      (op.header.getD []).length ≤ 65535 ∧ op.content.length < 2 ^ 64)
    (hone : ∀ op ∈ ops, op.key ≠ key → hf op.key.bytes ≠ hf key.bytes)
    (hpre : ∀ op ∈ ops, op.key ≠ key → ∀ q,
      startsWith (enumerationPre hf key) (generateFilename op.key (hf op.key.bytes) q) =
        false) :
    enumerateRecords hf (runTrace hf opts ops).2 key = kContents ops key := by
  obtain ⟨segs, hinv, hflat⟩ := kInv_trace hf key
    (fun nm => startsWith (enumerationPre hf key) nm = false) opts ops hh64 hklen hlen
    hkop hone hpre
  rw [enumerateRecords_of_KInv hinv hh64 hlen hklen, hflat]

/-- A trivial hash function for concrete instances. -/
def hfW : List Nat → Nat := fun _ => 0

/-- The empty key. -/
def keyW : Key := ⟨[], []⟩

/-- The default options: one week retention, ten segments per period. -/
def optsW : WalOptions := ⟨604800, 10⟩

/-- The concrete result of appending `[7]` to the empty key on a fresh WAL. -/
def resW : AppendSuccess :=
  match appendEntry hfW ⟨optsW, [], []⟩ [] 0 keyW none [7] true with
  | .ok r => r
  | .error _ => ⟨⟨optsW, [], []⟩, [], ⟨0, 0, 0⟩⟩

theorem claim_C1_witness : readEntryAt resW.fs resW.ref = .ok [7] :=
  claim_C1 hfW optsW keyW [] none [7] true 0 resW (by decide) (by decide) (by decide)
    (fun op hop => absurd hop (List.not_mem_nil op))
    (fun op hop => absurd hop (List.not_mem_nil op))
    (by decide) (by decide) rfl

/-- A key for the C2 witness. -/
def keyW2 : Key := ⟨[3], ['w']⟩

/-- One append of `[5]` to `keyW2`. -/
def opW2 : AppendOp := ⟨keyW2, none, [5], true, 0⟩

theorem claim_C2_witness :
    enumerateRecords hfW (runTrace hfW optsW [opW2]).2 keyW2 = [[5]] := by
  have h := claim_C2 hfW optsW keyW2 [opW2] (by decide) (by decide) (by decide)
    (by intro op hop _; rw [List.mem_singleton.mp hop]; exact ⟨by decide, by decide⟩)
    (by intro op hop hk; rw [List.mem_singleton.mp hop] at hk; exact absurd rfl hk)
    (by intro op hop hk; rw [List.mem_singleton.mp hop] at hk; exact absurd rfl hk)
  rw [h]
  rfl

/-- The hash used by the C2/C8 counterexamples: `7` on the target key's bytes,
`8` on everything else (any deterministic `u64` hash admits such keys; the
value of the target key's hash only has to appear in the other key's display
string). -/
def cexHf : List Nat → Nat := fun b => if b = [1] then 7 else 8

/-- The target key: display `k`, hash 7 under `cexHf`. -/
def cexKey : Key := ⟨[1], ['k']⟩

/-- The interfering key: display `k-7-x`, hash 8 under `cexHf`.  Its segment
files are named `k-7-x-8-….log`, which starts with `cexKey`'s enumeration
prefix `k-7-`. -/
def cexOther : Key := ⟨[2], ['k', '-', '7', '-', 'x']⟩

/-- One append of `[9]` to the interfering key. -/
def cexOp : AppendOp := ⟨cexOther, none, [9], false, 0⟩

/-- The name of the segment file the interfering append creates. -/
def cexName : List Char :=
  ['k', '-', '7', '-', 'x', '-', '8', '-', '0', '0', '0', '1', '.', 'l', 'o', 'g']

/-- The content of that segment file. -/
def cexContent : List Nat := segmentHeaderBytes cexOther 60480 ++ recordFrame none [9]

theorem claim_C2_counterexample :
    cexOp.key ≠ cexKey ∧
    kContents [cexOp] cexKey = [] ∧
    cexHf cexOther.bytes ≠ cexHf cexKey.bytes ∧
    enumerateRecords cexHf (runTrace cexHf optsW [cexOp]).2 cexKey = [[9]] := by
  refine ⟨by decide, by decide, by decide, ?_⟩
  have hfs : (runTrace cexHf optsW [cexOp]).2 = [⟨cexName, cexContent⟩] := by rfl
  rw [hfs]
  have hcollect : collectSegmentFiles cexHf [⟨cexName, cexContent⟩] cexKey =
      [(1, cexContent)] := by rfl
  rw [enumerateRecords, hcollect, List.mergeSort_singleton]
  have hread : readRecordsFromSegment cexContent = .ok [[9]] := by
    have := readRecordsFromSegment_spec cexOther 60480 [⟨none, [9]⟩] [] (by decide)
      (by intro fr hfr; rw [List.mem_singleton.mp hfr]; exact ⟨by decide, by decide⟩)
      (by simp)
    simpa [cexContent, framesBytes] using this
  simp [hread, Except.toOption]

/-! ### C3: tolerant scan versus targeted read at a malformed position -/

/-- C3 (amended): when the bytes at the expected record position do not begin
with the 6-byte record signature, the tolerant per-segment scan treats the
position as end-of-stream and returns the records read so far without error;
a targeted read at that position returns `CorruptedData` **when at least six
bytes remain there** (a genuine signature mismatch), but returns an I/O error
— not `CorruptedData` — when fewer than six bytes remain (the signature read
itself fails). -/
theorem claim_C3 (key : Key) (exp : Nat) (frames : List Frame) (junk : List Nat)
    (hklen : key.bytes.length < 2 ^ 64)
    (hwf : ∀ fr ∈ frames, fr.wf)
    (hjunk : ¬(6 ≤ junk.length ∧ junk.take 6 = nanoRecSignature)) :
    readRecordsFromSegment (segmentHeaderBytes key exp ++ (framesBytes frames ++ junk)) =
      .ok (frames.map Frame.content) ∧
    (6 ≤ junk.length →
      readEntryFromFile (segmentHeaderBytes key exp ++ (framesBytes frames ++ junk))
        (framesBytes frames).length = .error .corruptedData) ∧
    (junk.length < 6 →
      readEntryFromFile (segmentHeaderBytes key exp ++ (framesBytes frames ++ junk))
        (framesBytes frames).length = .error .io) := by
  refine ⟨readRecordsFromSegment_spec key exp frames junk hklen hwf hjunk, ?_, ?_⟩
  · intro h6
    exact readEntryFromFile_badSig key exp (framesBytes frames) junk hklen h6
      (fun hsig => hjunk ⟨h6, hsig⟩)
  · intro h6
    exact readEntryFromFile_shortTail key exp (framesBytes frames) junk hklen h6

theorem claim_C3_witness :
    readEntryFromFile (segmentHeaderBytes keyW 0 ++ (framesBytes [] ++ [0, 0, 0, 0, 0, 0]))
      (framesBytes ([] : List Frame)).length = Except.error .corruptedData :=
  (claim_C3 keyW 0 [] [0, 0, 0, 0, 0, 0] (by decide)
    (fun fr hfr => absurd hfr (List.not_mem_nil fr)) (by decide)).2.1 (by decide)

/-- A three-byte tail after the segment header: the tolerant scan returns no
records and no error, but the targeted read at that position fails with an
I/O error, not with the `CorruptedData` the original claim states. -/
theorem claim_C3_counterexample :
    readRecordsFromSegment (segmentHeaderBytes keyW 0 ++ [1, 2, 3]) = .ok [] ∧
    readEntryFromFile (segmentHeaderBytes keyW 0 ++ [1, 2, 3]) 0 = .error .io := by
  constructor
  · have := readRecordsFromSegment_spec keyW 0 [] [1, 2, 3] (by decide)
      (fun fr hfr => absurd hfr (List.not_mem_nil fr)) (by decide)
    simpa [framesBytes] using this
  · rfl

/-! ### C4: compaction deletes exactly the expired, verifiable segments -/

/-- `compact` deletes a file exactly when it is a `.log` file whose first 24
bytes are readable, whose signature verifies, and whose embedded expiration is
strictly in the past. -/
theorem compactKeep_eq_false_iff (now : Nat) (f : FsFile) :
    compactKeep now f = false ↔
      (endsWith logSuffixChars f.name = true ∧ 24 ≤ f.content.length ∧
        f.content.take 8 = nanoLogSignature ∧ embeddedExpiration f.content < now) := by
  rw [compactKeep]
  by_cases h1 : endsWith logSuffixChars f.name = true
  · rw [if_pos h1]
    by_cases h2 : 8 ≤ f.content.length ∧ f.content.take 8 = nanoLogSignature
    · rw [if_pos h2]
      by_cases h3 : 24 ≤ f.content.length
      · rw [if_pos h3]
        by_cases h4 : now > embeddedExpiration f.content
        · rw [if_pos h4]
          exact ⟨fun _ => ⟨h1, h3, h2.2, h4⟩, fun _ => rfl⟩
        · rw [if_neg h4]
          exact ⟨fun h => absurd h (by simp), fun h => absurd h.2.2.2 h4⟩
      · rw [if_neg h3]
        exact ⟨fun h => absurd h (by simp), fun h => absurd h.2.1 h3⟩
    · rw [if_neg h2]
      refine ⟨fun h => absurd h (by simp), fun h => absurd ⟨by omega, h.2.2.1⟩ h2⟩
  · rw [if_neg h1]
    exact ⟨fun h => absurd h (by simp), fun h => absurd h.1 h1⟩

/-- C4: after `compact` runs at wall-clock `now`, a file is in the directory
iff it was there before and is not an expired, signature-verified `.log` file
with a readable 24-byte header; in particular every remaining `.log` file with
a verified signature and readable header has an embedded expiration that is
not in the past. -/
theorem claim_C4 (now : Nat) (fs : Fs) :
    (∀ f : FsFile, f ∈ compactFs now fs ↔
      (f ∈ fs ∧ ¬(endsWith logSuffixChars f.name = true ∧ 24 ≤ f.content.length ∧
        f.content.take 8 = nanoLogSignature ∧ embeddedExpiration f.content < now))) ∧
    (∀ f ∈ compactFs now fs, endsWith logSuffixChars f.name = true →
      24 ≤ f.content.length → f.content.take 8 = nanoLogSignature →
      ¬ embeddedExpiration f.content < now) := by
  have hmem : ∀ f : FsFile, f ∈ compactFs now fs ↔ (f ∈ fs ∧ compactKeep now f = true) :=
    fun f => List.mem_filter
  constructor
  · intro f
    rw [hmem f]
    constructor
    · rintro ⟨hf, hkeep⟩
      refine ⟨hf, fun hc => ?_⟩
      rw [(compactKeep_eq_false_iff now f).mpr hc] at hkeep
      exact absurd hkeep (by simp)
    · rintro ⟨hf, hnc⟩
      refine ⟨hf, ?_⟩
      rcases Bool.eq_false_or_eq_true (compactKeep now f) with hT | hF
      · exact hT
      · exact absurd ((compactKeep_eq_false_iff now f).mp hF) hnc
  · intro f hf h1 h2 h3 h4
    have hkeep := ((hmem f).mp hf).2
    have hfalse := (compactKeep_eq_false_iff now f).mpr ⟨h1, h2, h3, h4⟩
    rw [hkeep] at hfalse
    exact absurd hfalse (by simp)

/-- A name ending in `.log` for the C4 witness. -/
def c4name : List Char := ['s', '.', 'l', 'o', 'g']

theorem claim_C4_witness :
    ¬ embeddedExpiration (segmentHeaderBytes keyW 200) < 100 :=
  (claim_C4 100 [⟨c4name, segmentHeaderBytes keyW 200⟩]).2
    ⟨c4name, segmentHeaderBytes keyW 200⟩ (by decide) (by decide) (by decide) (by decide)

/-! ### C5: segment duration and fresh-segment expiration -/

/-- C5 (amended): for a valid configuration the segment duration is the plain
integer division `entry_retention_secs / segments_per_retention_period`, with
**no** minimum of 1: it is positive iff the divisor is at most the retention.
A freshly created segment (no active segment for the key) gets expiration
`now + segment_duration`, which is strictly greater than `now` only under
that condition. -/
theorem claim_C5 (o : WalOptions)
    (hret : 1 ≤ o.entryRetentionSecs) (hspp : 1 ≤ o.segmentsPerRetentionPeriod) :
    WalOptions.validate o = .ok () ∧
    segmentDuration o = o.entryRetentionSecs / o.segmentsPerRetentionPeriod ∧
    (1 ≤ segmentDuration o ↔ o.segmentsPerRetentionPeriod ≤ o.entryRetentionSecs) ∧
    ∀ (hf : List Nat → Nat) (wal : Wal) (fs : Fs) (now : Nat) (key : Key),
      wal.options = o →
      lookupA wal.activeSegments (hf key.bytes) = none →
      lookupA (getOrCreateActiveSegment hf wal fs now key).wal.activeSegments
          (hf key.bytes) =
        some ⟨generateFilename key (hf key.bytes)
            ((lookupA wal.nextSequence (hf key.bytes)).getD 1),
          (lookupA wal.nextSequence (hf key.bytes)).getD 1, now + segmentDuration o⟩ ∧
      (o.segmentsPerRetentionPeriod ≤ o.entryRetentionSecs →
        now < now + segmentDuration o) := by
  have hdiv : 1 ≤ segmentDuration o ↔ o.segmentsPerRetentionPeriod ≤ o.entryRetentionSecs :=
    Nat.one_le_div_iff (by omega)
  refine ⟨?_, rfl, hdiv, ?_⟩
  · rw [WalOptions.validate, if_neg (by omega), if_neg (by omega)]
  · intro hf wal fs now key hopts hact
    subst hopts
    constructor
    · rw [getOrCreate_create_none hf wal fs now key _ hact rfl]
      exact lookupA_insertA_self _ _ _
    · intro hle
      have := hdiv.mpr hle
      omega

theorem claim_C5_witness :
    lookupA (getOrCreateActiveSegment hfW ⟨⟨10, 3⟩, [], []⟩ [] 50 keyW).wal.activeSegments
        (hfW keyW.bytes) =
      some ⟨generateFilename keyW (hfW keyW.bytes)
          ((lookupA (⟨⟨10, 3⟩, [], []⟩ : Wal).nextSequence (hfW keyW.bytes)).getD 1),
        (lookupA (⟨⟨10, 3⟩, [], []⟩ : Wal).nextSequence (hfW keyW.bytes)).getD 1,
        50 + segmentDuration ⟨10, 3⟩⟩ :=
  ((claim_C5 ⟨10, 3⟩ (by decide) (by decide)).2.2.2 hfW ⟨⟨10, 3⟩, [], []⟩ [] 50 keyW
    rfl rfl).1

/-- With retention 1 second and 2 segments per period — a configuration
`validate` accepts — the integer division makes the segment duration 0, not
the claimed `max(1, 1 / 2) = 1`, and a segment created at `now = 100` expires
at 100, not strictly later. -/
theorem claim_C5_counterexample :
    WalOptions.validate ⟨1, 2⟩ = .ok () ∧
    segmentDuration ⟨1, 2⟩ = 0 ∧
    max 1 ((1 : Nat) / 2) = 1 ∧
    lookupA (getOrCreateActiveSegment hfW ⟨⟨1, 2⟩, [], []⟩ [] 100 keyW).wal.activeSegments
        (hfW keyW.bytes) = some ⟨generateFilename keyW 0 1, 1, 100⟩ ∧
    ¬ (100 : Nat) < 100 := by
  exact ⟨rfl, rfl, rfl, by rfl, by omega⟩

/-! ### C6: recovery of next-sequence numbers from the directory -/

/-- The sequence numbers of the `.log` files whose filename parses to the
given key hash: the values the scanner folds over for that hash. -/
def parsedSeqsFor (fs : Fs) (keyHash : Nat) : List Nat :=
  fs.filterMap (fun f =>
    if endsWith logSuffixChars f.name then
      match parseFilename f.name with
      | some (kh, s) => if kh = keyHash then some s else none
      | none => none
    else none)

/-- The scanner's per-hash fold: `max` of the current value and `seq + 1`. -/
def seqFold (init : Nat) (l : List Nat) : Nat :=
  l.foldl (fun m s => max m (s + 1)) init

theorem seqFold_cons (init s : Nat) (l : List Nat) :
    seqFold init (s :: l) = seqFold (max init (s + 1)) l := rfl

theorem le_seqFold_init (l : List Nat) : ∀ init : Nat, init ≤ seqFold init l := by
  induction l with
  | nil => intro init; exact Nat.le_refl init
  | cons s l ih =>
    intro init
    rw [seqFold_cons]
    exact le_trans (Nat.le_max_left _ _) (ih _)

theorem lt_seqFold_of_mem {l : List Nat} {s : Nat} (hs : s ∈ l) :
    ∀ init : Nat, s < seqFold init l := by
  induction l with
  | nil => cases hs
  | cons x l ih =>
    intro init
    rw [seqFold_cons]
    rcases List.mem_cons.mp hs with rfl | hs'
    · exact Nat.lt_of_lt_of_le (by omega) (le_seqFold_init l _)
    · exact ih hs' _

/-- What `scan_existing_files` leaves in the next-sequence table for one hash:
the fold of `max (· + 1)` over the sequence numbers parsed for that hash,
seeded (through `unwrap_or(&0)`) by the accumulator's current value. -/
theorem scan_foldl_lookup (fs : Fs) : ∀ (acc : List (Nat × Nat)) (kh : Nat),
    lookupA (fs.foldl scanStep acc) kh =
      if parsedSeqsFor fs kh = [] then lookupA acc kh
      else some (seqFold ((lookupA acc kh).getD 0) (parsedSeqsFor fs kh)) := by
  induction fs with
  | nil => intro acc kh; simp [parsedSeqsFor]
  | cons f fs ih =>
    intro acc kh
    rw [List.foldl_cons]
    by_cases hlog : endsWith logSuffixChars f.name = true
    · rcases hp : parseFilename f.name with _ | ⟨kh', s⟩
      · have hstep : scanStep acc f = acc := by rw [scanStep, if_pos hlog, hp]
        have hseqs : parsedSeqsFor (f :: fs) kh = parsedSeqsFor fs kh := by
          simp only [parsedSeqsFor, List.filterMap_cons, hlog, if_true, hp]
        rw [hstep, hseqs, ih]
      · by_cases hkk : kh' = kh
        · subst hkk
          have hstep : scanStep acc f =
              insertA acc kh' (max ((lookupA acc kh').getD 0) (s + 1)) := by
            rw [scanStep, if_pos hlog, hp]
          have hseqs : parsedSeqsFor (f :: fs) kh' = s :: parsedSeqsFor fs kh' := by
            simp only [parsedSeqsFor, List.filterMap_cons, hlog, if_true, hp,
              if_pos rfl]
          rw [hstep, hseqs, ih]
          rw [if_neg (List.cons_ne_nil s (parsedSeqsFor fs kh'))]
          rw [lookupA_insertA_self]
          rw [seqFold_cons]
          by_cases hnil : parsedSeqsFor fs kh' = []
          · rw [if_pos hnil, hnil]
            rfl
          · rw [if_neg hnil]
            rfl
        · have hstep : scanStep acc f =
              insertA acc kh' (max ((lookupA acc kh').getD 0) (s + 1)) := by
            rw [scanStep, if_pos hlog, hp]
          have hseqs : parsedSeqsFor (f :: fs) kh = parsedSeqsFor fs kh := by
            simp only [parsedSeqsFor, List.filterMap_cons, hlog, if_true, hp,
              if_neg hkk]
          have hlook : lookupA (insertA acc kh'
              (max ((lookupA acc kh').getD 0) (s + 1))) kh = lookupA acc kh :=
            lookupA_insertA_ne acc _ (fun h => hkk h.symm)
          rw [hstep, hseqs, ih, hlook]
    · have hstep : scanStep acc f = acc := by rw [scanStep, if_neg hlog]
      have hseqs : parsedSeqsFor (f :: fs) kh = parsedSeqsFor fs kh := by
        simp only [parsedSeqsFor, List.filterMap_cons]
        rw [if_neg hlog]
      rw [hstep, hseqs, ih]

/-- C6: on open the scanner sets `next_sequence[key_hash]` to the fold of
`max (· + 1)` (from 0) over the sequence numbers of the parseable `.log`
files for that hash; the first sequence assigned to the key afterwards —
`next_sequence.get(..).unwrap_or(&1)` in `get_or_create_active_segment` — is
strictly greater than every sequence found on disk for that hash, and is 1
when no file parses to that hash. -/
theorem claim_C6 (hf : List Nat → Nat) (opts : WalOptions) (fs : Fs) (now : Nat)
    (key : Key) :
    lookupA (scanExistingFiles fs) (hf key.bytes) =
      (if parsedSeqsFor fs (hf key.bytes) = [] then none
       else some (seqFold 0 (parsedSeqsFor fs (hf key.bytes)))) ∧
    (∀ s ∈ parsedSeqsFor fs (hf key.bytes),
      s < (lookupA (scanExistingFiles fs) (hf key.bytes)).getD 1) ∧
    (parsedSeqsFor fs (hf key.bytes) = [] →
      (lookupA (scanExistingFiles fs) (hf key.bytes)).getD 1 = 1) ∧
    lookupA (getOrCreateActiveSegment hf ⟨opts, [], scanExistingFiles fs⟩ fs now
        key).wal.activeSegments (hf key.bytes) =
      some ⟨generateFilename key (hf key.bytes)
          ((lookupA (scanExistingFiles fs) (hf key.bytes)).getD 1),
        (lookupA (scanExistingFiles fs) (hf key.bytes)).getD 1,
        now + segmentDuration opts⟩ := by
  have hscan : lookupA (scanExistingFiles fs) (hf key.bytes) =
      if parsedSeqsFor fs (hf key.bytes) = [] then none
      else some (seqFold 0 (parsedSeqsFor fs (hf key.bytes))) := by
    rw [scanExistingFiles, scan_foldl_lookup fs [] (hf key.bytes)]
    rfl
  refine ⟨hscan, ?_, ?_, ?_⟩
  · intro s hs
    rw [hscan, if_neg (List.ne_nil_of_mem hs)]
    exact lt_seqFold_of_mem hs 0
  · intro h
    rw [hscan, if_pos h]
    rfl
  · exact (getOrCreate_create_none hf ⟨opts, [], scanExistingFiles fs⟩ fs now key _
      rfl rfl) ▸ lookupA_insertA_self _ _ _

/-- A directory with two parseable files for hash 0, sequences 3 and 5. -/
def fsC6 : Fs :=
  [⟨['-', '0', '-', '0', '0', '0', '3', '.', 'l', 'o', 'g'], []⟩,
   ⟨['-', '0', '-', '0', '0', '0', '5', '.', 'l', 'o', 'g'], []⟩]

theorem claim_C6_witness :
    3 < (lookupA (scanExistingFiles fsC6) (hfW keyW.bytes)).getD 1 ∧
    lookupA (getOrCreateActiveSegment hfW ⟨optsW, [], scanExistingFiles fsC6⟩ fsC6 0
        keyW).wal.activeSegments (hfW keyW.bytes) =
      some ⟨generateFilename keyW (hfW keyW.bytes)
          ((lookupA (scanExistingFiles fsC6) (hfW keyW.bytes)).getD 1),
        (lookupA (scanExistingFiles fsC6) (hfW keyW.bytes)).getD 1,
        0 + segmentDuration optsW⟩ :=
  ⟨(claim_C6 hfW optsW fsC6 0 keyW).2.1 3 (by decide),
   (claim_C6 hfW optsW fsC6 0 keyW).2.2.2⟩

/-! ### C7: the header size limit -/

/-- After `get_or_create_active_segment` there is always an active segment for
the computed key hash. -/
theorem getOrCreate_active_isSome (hf : List Nat → Nat) (wal : Wal) (fs : Fs) (now : Nat)
    (key : Key) :
    ∃ a, lookupA (getOrCreateActiveSegment hf wal fs now key).wal.activeSegments
      (getOrCreateActiveSegment hf wal fs now key).keyHash = some a := by
  rcases hact : lookupA wal.activeSegments (hf key.bytes) with _ | a
  · rw [getOrCreate_create_none hf wal fs now key _ hact rfl]
    exact ⟨_, lookupA_insertA_self _ _ _⟩
  · by_cases hrot : now ≥ a.expirationTimestamp
    · rw [getOrCreate_create_rotate hf wal fs now key a _ hact hrot rfl]
      exact ⟨_, lookupA_insertA_self _ _ _⟩
    · rw [getOrCreate_active hf wal fs now key a hact hrot]
      exact ⟨a, hact⟩

/-- C7: a header of length exactly 65535 passes the size check and the append
succeeds; a header of length 65536 or more makes `append_entry` return
`HeaderTooLarge` from the guard at the top of the function, before any
segment creation, rotation or write, leaving the WAL state and the directory
exactly as they were. -/
theorem claim_C7 (hf : List Nat → Nat) (wal : Wal) (fs : Fs) (now : Nat) (key : Key)
    (hdr content : List Nat) (durable : Bool) :
    (hdr.length = 65535 →
      (appendEntry hf wal fs now key (some hdr) content durable).isOk = true) ∧
    (65536 ≤ hdr.length →
      appendEntry hf wal fs now key (some hdr) content durable =
        .error (.headerTooLarge hdr.length 65535) ∧
      runAppend hf (wal, fs) ⟨key, some hdr, content, durable, now⟩ = (wal, fs)) := by
  constructor
  · intro hlen
    obtain ⟨a, ha⟩ := getOrCreate_active_isSome hf wal fs now key
    rw [appendEntry_eval hf wal fs now key (some hdr) content durable _ a
      (by simp [hlen]) rfl ha]
    rfl
  · intro hlen
    have herr : appendEntry hf wal fs now key (some hdr) content durable =
        .error (.headerTooLarge hdr.length 65535) := by
      rw [appendEntry, if_pos (by simp only [Option.getD_some, maxHeaderSize]; omega)]
      rfl
    refine ⟨herr, ?_⟩
    simp only [runAppend, herr]

theorem claim_C7_witness :
    (appendEntry hfW ⟨optsW, [], []⟩ [] 0 keyW (some (List.replicate 65535 0)) [1]
      true).isOk = true ∧
    appendEntry hfW ⟨optsW, [], []⟩ [] 0 keyW (some (List.replicate 65536 0)) [1] true =
      .error (.headerTooLarge 65536 65535) := by
  constructor
  · exact (claim_C7 hfW ⟨optsW, [], []⟩ [] 0 keyW (List.replicate 65535 0) [1] true).1
      (by simp only [List.length_replicate])
  · have h := ((claim_C7 hfW ⟨optsW, [], []⟩ [] 0 keyW (List.replicate 65536 0) [1]
      true).2 (by simp only [List.length_replicate]; omega)).1
    simpa only [List.length_replicate] using h

/-! ### C8: which files enumeration and targeted reads select -/

/-- Modelled from the spec's words ("collect all filenames where the parsed
`key_hash` equals the caller key's hash"): selection by the parsed hash
alone, for comparison with `collectSegmentFiles`, the selection the code
performs. -/
def specHashOnlyCollect (hf : List Nat → Nat) (fs : Fs) (key : Key) :
    List (Nat × List Nat) :=
  fs.filterMap (fun f =>
    match parseFilename f.name with
    | some (kh, sequence) => if kh = hf key.bytes then some (sequence, f.content) else none
    | none => none)

/-- On directories where the code's sanitized-prefix + `.log` + parseability
test coincides with the parsed-hash test, the two selections agree. -/
theorem collect_eq_hashOnly (hf : List Nat → Nat) (key : Key) :
    ∀ fs : Fs, (∀ f ∈ fs,
      (((startsWith (enumerationPre hf key) f.name &&
          endsWith logSuffixChars f.name) = true) ∧ (parseFilename f.name).isSome = true) ↔
        parsedHash f.name = some (hf key.bytes)) →
    collectSegmentFiles hf fs key = specHashOnlyCollect hf fs key := by
  intro fs
  induction fs with
  | nil => intro h; rfl
  | cons f fs ih =>
    intro hagree
    have hhead := hagree f (List.mem_cons_self f fs)
    have htail := ih (fun g hg => hagree g (List.mem_cons_of_mem f hg))
    simp only [collectSegmentFiles, specHashOnlyCollect, List.filterMap_cons] at htail ⊢
    rcases hp : parseFilename f.name with _ | ⟨kh, s⟩
    · simp only [hp]
      by_cases ht : (startsWith (enumerationPre hf key) f.name &&
          endsWith logSuffixChars f.name) = true
      · simp only [ht, if_true]
        exact htail
      · rw [if_neg ht]
        exact htail
    · simp only [hp]
      by_cases hkh : kh = hf key.bytes
      · subst hkh
        have ht := (hhead.mpr (by rw [parsedHash, hp]; rfl)).1
        simp only [ht, if_true, if_pos rfl]
        rw [htail]
      · have hne : parsedHash f.name ≠ some (hf key.bytes) := by
          rw [parsedHash, hp]
          intro h
          exact hkh (Option.some.inj h)
        have ht : ¬ (startsWith (enumerationPre hf key) f.name &&
            endsWith logSuffixChars f.name) = true := by
          intro ht
          exact hne (hhead.mp ⟨ht, by rw [hp]; rfl⟩)
        rw [if_neg ht, if_neg hkh]
        exact htail

/-- `read_entry_from_file` reports I/O or corruption errors, never
`EntryNotFound`. -/
theorem readEntryFromFile_ne_entryNotFound (content : List Nat) (offset : Nat) :
    readEntryFromFile content offset ≠ .error .entryNotFound := by
  simp only [readEntryFromFile]
  repeat' split
  all_goals simp

/-- C8 (amended): `read_entry_at` selects by parsed hash (and sequence)
alone: it returns `EntryNotFound` exactly when no filename parses to the
reference's `(key_hash, sequence)`.  But `enumerate_records` additionally
filters by the sanitized-key + hash filename prefix and the `.log` suffix:
its selection agrees with the spec's parsed-hash-only selection exactly on
directories where the two tests coincide (`claim_C8_counterexample` shows a
parsed-hash match that enumeration drops). -/
theorem claim_C8 (hf : List Nat → Nat) (fs : Fs) (key : Key)
    (hagree : ∀ f ∈ fs,
      (((startsWith (enumerationPre hf key) f.name &&
          endsWith logSuffixChars f.name) = true) ∧ (parseFilename f.name).isSome = true) ↔
        parsedHash f.name = some (hf key.bytes)) :
    collectSegmentFiles hf fs key = specHashOnlyCollect hf fs key ∧
    ∀ ref : EntryRef, (readEntryAt fs ref = .error .entryNotFound ↔
      ∀ f ∈ fs, parseFilename f.name ≠ some (ref.keyHash, ref.sequenceNumber)) := by
  refine ⟨collect_eq_hashOnly hf key fs hagree, ?_⟩
  intro ref
  constructor
  · intro hread f hfmem hparse
    rw [readEntryAt] at hread
    rcases hfind : fs.find? (fun g => decide (parseFilename g.name =
        some (ref.keyHash, ref.sequenceNumber))) with _ | g
    · have := List.find?_eq_none.mp hfind f hfmem
      simp [hparse] at this
    · rw [hfind] at hread
      exact readEntryFromFile_ne_entryNotFound g.content ref.offset hread
  · intro hnone
    rw [readEntryAt]
    have hfind : fs.find? (fun g => decide (parseFilename g.name =
        some (ref.keyHash, ref.sequenceNumber))) = none := by
      apply List.find?_eq_none.mpr
      intro g hg
      simp [hnone g hg]
    rw [hfind]

/-- A file for `cexKey` whose name carries the right hash (7) but the wrong
sanitized prefix (`x-`, not `k-`). -/
def c8name : List Char := ['x', '-', '7', '-', '0', '0', '0', '1', '.', 'l', 'o', 'g']

/-- Its content: a valid segment header for `cexKey` and one record `[4]`. -/
def c8content : List Nat := segmentHeaderBytes cexKey 0 ++ recordFrame none [4]

/-- The file parses to `cexKey`'s hash and sequence 1, and the targeted read
through that reference succeeds — yet `enumerate_records` returns nothing:
the parsed hash alone does not decide enumeration membership. -/
theorem claim_C8_counterexample :
    parseFilename c8name = some (cexHf cexKey.bytes, 1) ∧
    readEntryAt [⟨c8name, c8content⟩] ⟨cexHf cexKey.bytes, 1, 0⟩ = .ok [4] ∧
    enumerateRecords cexHf [⟨c8name, c8content⟩] cexKey = [] := by
  refine ⟨by decide, by rfl, ?_⟩
  rw [enumerateRecords,
    show collectSegmentFiles cexHf [⟨c8name, c8content⟩] cexKey = [] from rfl,
    List.mergeSort_nil]
  rfl

/-- A well-named file for `cexKey`. -/
def c8wname : List Char := ['k', '-', '7', '-', '0', '0', '0', '1', '.', 'l', 'o', 'g']

theorem claim_C8_witness :
    collectSegmentFiles cexHf [⟨c8wname, []⟩] cexKey =
      specHashOnlyCollect cexHf [⟨c8wname, []⟩] cexKey :=
  (claim_C8 cexHf [⟨c8wname, []⟩] cexKey (by decide)).1

/-! ### C10: compact is a frame on the in-memory state -/

/-- C10: `compact` only deletes directory entries; the in-memory WAL value —
in particular the active-segment table, the next-sequence table and hence
`active_segment_count` — is exactly the same before and after, even when a
deleted file backs a segment still held in the active-segment table. -/
theorem claim_C10 (wal : Wal) (fs : Fs) (now : Nat) :
    (walCompact wal fs now).1 = wal ∧
    (walCompact wal fs now).1.activeSegments = wal.activeSegments ∧
    (walCompact wal fs now).1.nextSequence = wal.nextSequence ∧
    activeSegmentCount (walCompact wal fs now).1 = activeSegmentCount wal :=
  ⟨rfl, rfl, rfl, rfl⟩

end NanoWal
